import Mathlib

/-!
Shallow embedding of the memesim simulation core (`src/config.py`,
`src/core/meme.py`, `src/core/agent.py`, `src/core/grid.py`,
`src/simulation/engine.py`).

Memes are binary patterns (lists of 0/1 naturals) with an age counter.
Floating-point arithmetic of the source is modelled over the reals.
The shared `numpy` random generator is modelled as a pair of draw streams
(one for uniform reals in `[0,1)`, one for integer choices) together with a
position counter; every primitive draw consumes exactly one position, and a
call asking for `n` uniforms consumes `n` positions.
-/

namespace Memesim

/-- Run configuration, mirroring the constants of `config.py`. -/
structure Config where
  memeLength : Nat                      -- MEME_LENGTH (L)
  poolSize : Nat                        -- POOL_SIZE (K)
  muBaseInternal : ℝ                    -- MU_BASE_INTERNAL
  muBaseExternal : ℝ                    -- MU_BASE_EXTERNAL
  complexityScaleFactor : ℝ             -- COMPLEXITY_SCALE_FACTOR (k)
  useUtilitySelection : Bool            -- USE_UTILITY_SELECTION
  alpha : ℝ                             -- ALPHA
  beta : ℝ                              -- BETA
  utilityPatterns : List (List Nat)     -- UTILITY_PATTERNS

/-- A meme: a binary pattern plus an age counter (`Meme.__init__`). -/
structure Meme where
  pattern : List Nat
  age : Nat
deriving DecidableEq

instance : Inhabited Meme := ⟨⟨[], 0⟩⟩

/-- The constructor's validity assertions: length `L`, bits in `{0,1}`. -/
def validPattern (cfg : Config) (p : List Nat) : Prop :=
  p.length = cfg.memeLength ∧ ∀ b ∈ p, b = 0 ∨ b = 1

instance (cfg : Config) (p : List Nat) : Decidable (validPattern cfg p) := by
  unfold validPattern; infer_instance

/-- `Meme.entropy`: Shannon entropy of the bit frequency, in bits, with the
guards `if p_0 > 0` / `if p_1 > 0` of the source. -/
noncomputable def entropy (p : List Nat) : ℝ :=
  let L : ℝ := (p.length : ℝ)
  let nOnes : ℝ := (p.sum : ℝ)
  let nZeros : ℝ := L - nOnes
  let p0 : ℝ := nZeros / L
  let p1 : ℝ := nOnes / L
  (if 0 < p0 then -(p0 * Real.logb 2 p0) else 0) +
    (if 0 < p1 then -(p1 * Real.logb 2 p1) else 0)

/-- `Meme.complexity`: entropy divided by `log2(len(pattern))`. -/
noncomputable def complexity (p : List Nat) : ℝ :=
  entropy p / Real.logb 2 (p.length : ℝ)

/-- `Meme.hamming_distance`: differing positions over pattern length. -/
noncomputable def hamming_distance (p q : List Nat) : ℝ :=
  ((List.zipWith (fun a b => if a ≠ b then (1 : Nat) else 0) p q).sum : ℝ) /
    (p.length : ℝ)

/-- `Meme.utility`: `1 - min` Hamming distance to any configured utility
pattern; `0` when none are configured. -/
noncomputable def utility (cfg : Config) (p : List Nat) : ℝ :=
  match cfg.utilityPatterns.map (fun q => hamming_distance p q) with
  | [] => 0
  | d :: ds => 1 - ds.foldl min d

/-- `Meme.combined_score`: `alpha * U - beta * C`. -/
noncomputable def combined_score (cfg : Config) (m : Meme) : ℝ :=
  cfg.alpha * utility cfg m.pattern - cfg.beta * complexity m.pattern

/-- The effective mutation rate computed inside `Meme.copy_with_mutation`:
`mu_eff = mu_base + COMPLEXITY_SCALE_FACTOR * complexity(source)`. -/
noncomputable def muEff (cfg : Config) (muBase : ℝ) (p : List Nat) : ℝ :=
  muBase + cfg.complexityScaleFactor * complexity p

/-- The random generator model: a stream of uniform reals, a stream of
integer draws, and a position counter shared by both kinds of draw. -/
structure Rng where
  u : Nat → ℝ
  z : Nat → Nat
  pos : Nat

/-- Advance the generator by `n` draws. -/
def Rng.advance (r : Rng) (n : Nat) : Rng := { r with pos := r.pos + n }

/-- One uniform real draw (`rng.random()` for a single value). -/
def Rng.next (r : Rng) : ℝ × Rng := (r.u r.pos, r.advance 1)

/-- `rng.choice` on a collection of `n` items / `rng.integers(0, n)`:
one draw yielding an index `< n`. -/
def Rng.choiceIdx (r : Rng) (n : Nat) : Nat × Rng := (r.z r.pos % n, r.advance 1)

/-- `rng.random(n)`: a run of `n` independent uniform draws. -/
def Rng.randoms : Rng → Nat → List ℝ × Rng
  | r, 0 => ([], r)
  | r, n + 1 =>
    let xr := r.next
    let xsr := xr.2.randoms n
    (xr.1 :: xsr.1, xsr.2)

/-- `Meme.copy_with_mutation`: each bit flips independently when its uniform
draw falls below `mu_eff`; the copy's age is reset to `0`. -/
noncomputable def copy_with_mutation (cfg : Config) (m : Meme) (muBase : ℝ)
    (r : Rng) : Meme × Rng :=
  let mu := muEff cfg muBase m.pattern
  let usr := r.randoms m.pattern.length
  let newPattern := List.zipWith (fun b x => if x < mu then 1 - b else b)
    m.pattern usr.1
  (⟨newPattern, 0⟩, usr.2)

/-- `Meme.random`: a fresh meme with `L` uniformly random bits
(`rng.integers(0, 2, size=L)`, consuming `L` draws). -/
def Meme.randomMeme (cfg : Config) (r : Rng) : Meme × Rng :=
  (⟨(List.range cfg.memeLength).map (fun i => r.z (r.pos + i) % 2), 0⟩,
    r.advance cfg.memeLength)

/-- Python's `min(range(n), key=key)`: the first index with minimal key.
The fold replaces the current best only on a strictly smaller key. -/
noncomputable def pyMinIdx (key : Nat → ℝ) (n : Nat) : Nat :=
  (List.range n).foldl (fun best i => if key i < key best then i else best) 0

/-- Python's `max(range(n), key=key)`: the first index with maximal key. -/
noncomputable def pyMaxIdx (key : Nat → ℝ) (n : Nat) : Nat :=
  (List.range n).foldl (fun best i => if key best < key i then i else best) 0

/-- Python's `min(xs, key=key)`: the first element with minimal key. -/
noncomputable def pyMinBy {α : Type} (key : α → ℝ) : List α → Option α
  | [] => none
  | x :: xs => some (xs.foldl (fun best a => if key a < key best then a else best) x)

/-- Python's `max(xs, key=key)`: the first element with maximal key. -/
noncomputable def pyMaxBy {α : Type} (key : α → ℝ) : List α → Option α
  | [] => none
  | x :: xs => some (xs.foldl (fun best a => if key best < key a then a else best) x)

/-- An agent: a grid position plus a meme pool (`Agent.__init__` keeps only
the first `POOL_SIZE` memes and asserts the pool is non-empty). -/
structure Agent where
  x : Nat
  y : Nat
  meme_pool : List Meme
deriving DecidableEq

instance : Inhabited Agent := ⟨⟨0, 0, []⟩⟩

/-- `Agent.__init__`: truncate the initial list to `POOL_SIZE`; fail (the
assertion) exactly when the truncated pool is empty. -/
def mkAgent (cfg : Config) (x y : Nat) (initialMemes : List Meme) : Option Agent :=
  let pool := initialMemes.take cfg.poolSize
  if pool = [] then none else some ⟨x, y, pool⟩

/-- `Agent.get_dominant_meme`: highest combined score under the utility
policy, lowest complexity otherwise (`none` on an empty pool, where the
source's `max`/`min` would raise). -/
noncomputable def get_dominant_meme (cfg : Config) (a : Agent) : Option Meme :=
  if cfg.useUtilitySelection then
    pyMaxBy (fun m => combined_score cfg m) a.meme_pool
  else
    pyMinBy (fun m => complexity m.pattern) a.meme_pool

/-- `Agent._add_to_pool`: append; if the pool now exceeds `POOL_SIZE`, pop
the index of the lowest combined score (utility policy) or the highest
complexity (fidelity policy). -/
noncomputable def add_to_pool (cfg : Config) (pool : List Meme) (m : Meme) :
    List Meme :=
  let pool1 := pool ++ [m]
  if cfg.poolSize < pool1.length then
    if cfg.useUtilitySelection then
      pool1.eraseIdx
        (pyMinIdx (fun i => combined_score cfg (pool1.getD i default)) pool1.length)
    else
      pool1.eraseIdx
        (pyMaxIdx (fun i => complexity (pool1.getD i default).pattern) pool1.length)
  else pool1

/-- `Agent.internal_rehearsal`: draw one pool member uniformly (one draw),
mutate it with the internal base rate, insert the result. -/
noncomputable def internal_rehearsal (cfg : Config) (a : Agent) (r : Rng) :
    Agent × Rng :=
  let ir := r.choiceIdx a.meme_pool.length
  let source := a.meme_pool.getD ir.1 default
  let mr := copy_with_mutation cfg source cfg.muBaseInternal ir.2
  ({ a with meme_pool := add_to_pool cfg a.meme_pool mr.1 }, mr.2)

/-- `Agent.receive_meme`: mutate the incoming meme with the external base
rate and insert it. -/
noncomputable def receive_meme (cfg : Config) (a : Agent) (source : Meme)
    (r : Rng) : Agent × Rng :=
  let mr := copy_with_mutation cfg source cfg.muBaseExternal r
  ({ a with meme_pool := add_to_pool cfg a.meme_pool mr.1 }, mr.2)

/-- `Agent.age_memes`: increment every pool member's age. -/
def age_memes (a : Agent) : Agent :=
  { a with meme_pool := a.meme_pool.map (fun m => { m with age := m.age + 1 }) }

/-- `Agent.copy`: a deep copy preserving each meme's pattern and age. -/
def Agent.copy (a : Agent) : Agent :=
  { a with meme_pool := a.meme_pool.map (fun m => ⟨m.pattern, m.age⟩) }

/-- The grid: dimension `size` and a row-major (`x` outer, `y` inner) flat
cell list; cell `(x, y)` lives at index `x * size + y`. -/
structure Grid where
  size : Nat
  cells : List Agent

/-- `Grid.get_agent`. -/
def get_agent (g : Grid) (x y : Nat) : Agent := g.cells.getD (x * g.size + y) default

/-- `Grid.get_all_agents`: the row-major flat view. -/
def get_all_agents (g : Grid) : List Agent := g.cells

/-- Python's `(a % N)` on a possibly negative `a` (matches `Int.emod`). -/
def wrap (n : Nat) (a : Int) : Nat := (a % (n : Int)).toNat

/-- The `(dx, dy)` pairs visited by `get_moore_neighbors`'s nested loop, in
loop order, with `(0, 0)` skipped. -/
def mooreOffsets : List (Int × Int) :=
  [(-1, -1), (-1, 0), (-1, 1), (0, -1), (0, 1), (1, -1), (1, 0), (1, 1)]

/-- The wrapped coordinates visited by `Grid.get_moore_neighbors`. -/
def mooreCoords (n x y : Nat) : List (Nat × Nat) :=
  mooreOffsets.map (fun d => (wrap n ((x : Int) + d.1), wrap n ((y : Int) + d.2)))

/-- `Grid.get_moore_neighbors`: the 8 toroidally wrapped Moore cells. -/
def get_moore_neighbors (g : Grid) (x y : Nat) : List Agent :=
  (mooreCoords g.size x y).map (fun c => get_agent g c.1 c.2)

/-- `Grid.set_all_agents`: the assertion rejects any list that is not
exactly `size * size` agents; on success the whole cell array is replaced. -/
def set_all_agents (g : Grid) (agents : List Agent) : Option Grid :=
  if agents.length = g.size * g.size then some { g with cells := agents } else none

/-- The engine state (`SimulationEngine.__init__`). -/
structure SimulationEngine where
  grid : Grid
  rng : Rng
  generation : Nat

/-- Thread the rng through an elementwise update, in list order (models the
source's in-order loops over agents sharing one generator). -/
def mapRng {α β : Type} (f : α → Rng → β × Rng) : List α → Rng → List β × Rng
  | [], r => ([], r)
  | a :: as, r =>
    let br := f a r
    let bsr := mapRng f as br.2
    (br.1 :: bsr.1, bsr.2)

/-- The loop body of the internal phase: rehearse, then age (the dominance
election in the source is a pure read used only for logging). -/
noncomputable def internal_agent_step (cfg : Config) (a : Agent) (r : Rng) :
    Agent × Rng :=
  let ar := internal_rehearsal cfg a r
  (age_memes ar.1, ar.2)

/-- `SimulationEngine._internal_dynamics_phase`: per agent in canonical
order, rehearse then age. -/
noncomputable def internal_dynamics_phase (cfg : Config) (g : Grid) (r : Rng) :
    Grid × Rng :=
  let cr := mapRng (internal_agent_step cfg) g.cells r
  ({ g with cells := cr.1 }, cr.2)

/-- The per-cell body of the external phase: pick one Moore neighbor of the
old grid (one draw), take that old neighbor's dominant meme, and deliver it
to the new agent. An empty neighbor pool would raise in the source; it is
modelled as the identity and is unreachable while pools are non-empty. -/
noncomputable def external_update (cfg : Config) (oldGrid : Grid) (a : Agent)
    (r : Rng) : Agent × Rng :=
  let neighbors := get_moore_neighbors oldGrid a.x a.y
  let ir := r.choiceIdx neighbors.length
  let selected := neighbors.getD ir.1 default
  match get_dominant_meme cfg selected with
  | some d => receive_meme cfg a d ir.2
  | none => (a, ir.2)

/-- `SimulationEngine._external_dynamics_phase`: copy every agent, update
each copy against the old grid, then publish via `set_all_agents`. -/
noncomputable def external_dynamics_phase (cfg : Config) (g : Grid) (r : Rng) :
    Option Grid × Rng :=
  let newAgents0 := (get_all_agents g).map Agent.copy
  let nr := mapRng (external_update cfg g) newAgents0 r
  (set_all_agents g nr.1, nr.2)

/-- `SimulationEngine.step`: internal phase, external phase, increment the
generation counter (statistics logging is a pure read, omitted). -/
noncomputable def step (cfg : Config) (e : SimulationEngine) :
    Option SimulationEngine :=
  let gr1 := internal_dynamics_phase cfg e.grid e.rng
  let gr2 := external_dynamics_phase cfg gr1.1 gr1.2
  match gr2.1 with
  | some g2 => some { grid := g2, rng := gr2.2, generation := e.generation + 1 }
  | none => none

/-- Iterated stepping: the trajectory after `n` generations. -/
noncomputable def runN (cfg : Config) (e : SimulationEngine) : Nat → Option SimulationEngine
  | 0 => some e
  | n + 1 => (runN cfg e n).bind (step cfg)

/-- The configuration currently set in `config.py`. -/
noncomputable def defaultConfig : Config where
  memeLength := 16
  poolSize := 5
  muBaseInternal := 0.1
  muBaseExternal := 0.5
  complexityScaleFactor := 0.5
  useUtilitySelection := true
  alpha := 0.5
  beta := 0.5
  utilityPatterns :=
    [[0, 0, 0, 0, 1, 1, 1, 1, 0, 0, 0, 0, 1, 1, 1, 1],
     [1, 1, 1, 1, 1, 1, 1, 1, 0, 0, 0, 0, 0, 0, 0, 0],
     [0, 1, 0, 1, 1, 0, 1, 0, 0, 1, 0, 1, 1, 0, 1, 0],
     [1, 1, 1, 1, 1, 0, 0, 1, 1, 0, 0, 1, 1, 1, 1, 1],
     [1, 0, 0, 1, 0, 1, 1, 0, 0, 1, 1, 0, 1, 0, 0, 1]]

/-- A maximally bit-balanced pattern of the configured length 16. -/
def balancedPattern16 : List Nat := [1, 1, 1, 1, 1, 1, 1, 1, 0, 0, 0, 0, 0, 0, 0, 0]

/-! ### Arithmetic facts about entropy and complexity -/

theorem sum_le_length_of_bits {p : List Nat} (hb : ∀ b ∈ p, b = 0 ∨ b = 1) :
    p.sum ≤ p.length := by
  induction p with
  | nil => simp
  | cons a t ih =>
    have ha : a = 0 ∨ a = 1 := hb a (by simp)
    have ht := ih (fun b hbt => hb b (by simp [hbt]))
    simp only [List.sum_cons, List.length_cons]
    omega

theorem sum_eq_zero_iff_all_zero {p : List Nat} :
    p.sum = 0 ↔ ∀ b ∈ p, b = 0 := by
  induction p with
  | nil => simp
  | cons a t ih =>
    simp only [List.sum_cons, List.mem_cons, Nat.add_eq_zero]
    constructor
    · rintro ⟨ha, ht⟩ b hb
      rcases hb with rfl | hb
      · exact ha
      · exact ih.mp ht b hb
    · intro h
      exact ⟨h a (Or.inl rfl), ih.mpr (fun b hb => h b (Or.inr hb))⟩

theorem sum_eq_length_iff_all_one {p : List Nat}
    (hb : ∀ b ∈ p, b = 0 ∨ b = 1) :
    p.sum = p.length ↔ ∀ b ∈ p, b = 1 := by
  induction p with
  | nil => simp
  | cons a t ih =>
    have ha : a = 0 ∨ a = 1 := hb a (by simp)
    have hts := sum_le_length_of_bits (fun b hbt => hb b (List.mem_cons_of_mem a hbt))
    have iht := ih (fun b hbt => hb b (List.mem_cons_of_mem a hbt))
    simp only [List.sum_cons, List.length_cons, List.mem_cons]
    constructor
    · intro h
      have ha1 : a = 1 := by omega
      have hsum : t.sum = t.length := by omega
      rintro b (rfl | hbt)
      · exact ha1
      · exact iht.mp hsum b hbt
    · intro h
      have ha1 : a = 1 := h a (Or.inl rfl)
      have : t.sum = t.length := iht.mpr (fun b hbt => h b (Or.inr hbt))
      omega

/-- The source's guarded entropy expression agrees with Mathlib's binary
entropy function, rescaled from nats to bits. -/
theorem entropy_eq_binEntropy (p : List Nat) (hne : p ≠ [])
    (hle : p.sum ≤ p.length) :
    entropy p = Real.binEntropy ((p.sum : ℝ) / (p.length : ℝ)) / Real.log 2 := by
  have hL0 : 0 < p.length := List.length_pos.mpr hne
  have hLpos : (0 : ℝ) < (p.length : ℝ) := by exact_mod_cast hL0
  have hs0 : (0 : ℝ) ≤ (p.sum : ℝ) := by positivity
  have hsL : (p.sum : ℝ) ≤ (p.length : ℝ) := by exact_mod_cast hle
  have hguard : ∀ x : ℝ, 0 ≤ x →
      (if 0 < x then -(x * Real.logb 2 x) else 0) = -(x * Real.logb 2 x) := by
    intro x hx
    rcases lt_or_eq_of_le hx with h | h
    · rw [if_pos h]
    · rw [← h]; simp
  have hlog2 : Real.log 2 ≠ 0 := (Real.log_pos one_lt_two).ne'
  unfold entropy
  simp only []
  rw [hguard _ (div_nonneg (by linarith) hLpos.le),
    hguard _ (div_nonneg hs0 hLpos.le)]
  have hsplit : ((p.length : ℝ) - (p.sum : ℝ)) / (p.length : ℝ)
      = 1 - (p.sum : ℝ) / (p.length : ℝ) := by
    field_simp
  rw [hsplit]
  simp only [Real.logb, Real.binEntropy, Real.log_inv]
  field_simp
  ring

theorem entropy_nonneg (p : List Nat) (hne : p ≠ []) (hle : p.sum ≤ p.length) :
    0 ≤ entropy p := by
  rw [entropy_eq_binEntropy p hne hle]
  have hLpos : (0 : ℝ) < (p.length : ℝ) := by
    exact_mod_cast List.length_pos.mpr hne
  have h0 : (0 : ℝ) ≤ (p.sum : ℝ) / (p.length : ℝ) := by positivity
  have h1 : (p.sum : ℝ) / (p.length : ℝ) ≤ 1 := by
    rw [div_le_one hLpos]; exact_mod_cast hle
  exact div_nonneg (Real.binEntropy_nonneg h0 h1) (Real.log_pos one_lt_two).le

theorem entropy_le_one (p : List Nat) (hne : p ≠ []) (hle : p.sum ≤ p.length) :
    entropy p ≤ 1 := by
  rw [entropy_eq_binEntropy p hne hle]
  rw [div_le_one (Real.log_pos one_lt_two)]
  exact Real.binEntropy_le_log_two

theorem entropy_eq_zero_iff (p : List Nat) (hne : p ≠ [])
    (hle : p.sum ≤ p.length) :
    entropy p = 0 ↔ (p.sum = 0 ∨ p.sum = p.length) := by
  rw [entropy_eq_binEntropy p hne hle]
  have hLpos : (0 : ℝ) < (p.length : ℝ) := by
    exact_mod_cast List.length_pos.mpr hne
  rw [div_eq_zero_iff]
  have hlog2 : Real.log 2 ≠ 0 := (Real.log_pos one_lt_two).ne'
  constructor
  · rintro (h | h)
    · rcases Real.binEntropy_eq_zero.mp h with h0 | h1
      · left
        rw [div_eq_zero_iff] at h0
        rcases h0 with h0 | h0
        · exact_mod_cast h0
        · exact absurd h0 hLpos.ne'
      · right
        have : (p.sum : ℝ) = (p.length : ℝ) := by
          rw [div_eq_one_iff_eq hLpos.ne'] at h1
          exact h1
        exact_mod_cast this
    · exact absurd h hlog2
  · rintro (h | h)
    · left
      apply Real.binEntropy_eq_zero.mpr
      left
      rw [h]
      simp
    · left
      apply Real.binEntropy_eq_zero.mpr
      right
      rw [h, div_self hLpos.ne']

theorem entropy_balanced (p : List Nat) (hne : p ≠ [])
    (hbal : 2 * p.sum = p.length) :
    entropy p = 1 := by
  have hle : p.sum ≤ p.length := by omega
  rw [entropy_eq_binEntropy p hne hle]
  have hLpos : (0 : ℝ) < (p.length : ℝ) := by
    exact_mod_cast List.length_pos.mpr hne
  have hq : (p.sum : ℝ) / (p.length : ℝ) = 2⁻¹ := by
    have h2 : ((p.length : ℝ)) = 2 * (p.sum : ℝ) := by exact_mod_cast hbal.symm
    have hLn0 : 0 < p.length := List.length_pos.mpr hne
    have hspos : (0 : ℝ) < (p.sum : ℝ) := by
      have : 0 < p.sum := by omega
      exact_mod_cast this
    rw [h2, div_eq_iff (by positivity)]
    ring
  rw [hq, Real.binEntropy_two_inv, div_self (Real.log_pos one_lt_two).ne']

theorem one_le_logb_length {p : List Nat} (hL : 2 ≤ p.length) :
    1 ≤ Real.logb 2 (p.length : ℝ) := by
  have h2 : (2 : ℝ) ≤ (p.length : ℝ) := by exact_mod_cast hL
  calc (1 : ℝ) = Real.logb 2 2 := (Real.logb_self_eq_one one_lt_two).symm
    _ ≤ Real.logb 2 (p.length : ℝ) :=
        Real.logb_le_logb_of_le one_lt_two (by norm_num) h2

theorem complexity_nonneg (p : List Nat) (hne : p ≠ [])
    (hle : p.sum ≤ p.length) (hL : 2 ≤ p.length) :
    0 ≤ complexity p :=
  div_nonneg (entropy_nonneg p hne hle)
    (le_trans zero_le_one (one_le_logb_length hL))

theorem complexity_le_one (p : List Nat) (hne : p ≠ [])
    (hle : p.sum ≤ p.length) (hL : 2 ≤ p.length) :
    complexity p ≤ 1 := by
  have h1 := one_le_logb_length hL
  have hpos : 0 < Real.logb 2 (p.length : ℝ) := lt_of_lt_of_le one_pos h1
  rw [complexity, div_le_one hpos]
  exact le_trans (entropy_le_one p hne hle) h1

theorem complexity_eq_zero_iff (p : List Nat) (hne : p ≠ [])
    (hle : p.sum ≤ p.length) (hL : 2 ≤ p.length) :
    complexity p = 0 ↔ (p.sum = 0 ∨ p.sum = p.length) := by
  have h1 := one_le_logb_length hL
  rw [complexity, div_eq_zero_iff]
  constructor
  · rintro (h | h)
    · exact (entropy_eq_zero_iff p hne hle).mp h
    · exact absurd h (by linarith)
  · intro h
    exact Or.inl ((entropy_eq_zero_iff p hne hle).mpr h)

theorem logb_two_sixteen : Real.logb 2 (16 : ℝ) = 4 := by
  have h : (16 : ℝ) = 2 ^ (4 : ℕ) := by norm_num
  rw [h, Real.logb_pow, Real.logb_self_eq_one one_lt_two]
  norm_num

theorem complexity_balanced16 : complexity balancedPattern16 = 1 / 4 := by
  have h1 : entropy balancedPattern16 = 1 :=
    entropy_balanced _ (by decide) (by decide)
  have hlen : ((balancedPattern16.length : Nat) : ℝ) = 16 := by norm_num [balancedPattern16]
  rw [complexity, h1, hlen, logb_two_sixteen]

theorem entropy_balanced16 : entropy balancedPattern16 = 1 :=
  entropy_balanced _ (by decide) (by decide)

/-! ### Characterizations of the Python `min`/`max` folds

Python's `min`/`max` return the first element attaining the extremum: the
folds replace the running best only on a strict improvement. -/

theorem pyMinIdx_succ (key : Nat → ℝ) (k : Nat) :
    pyMinIdx key (k + 1) =
      if key k < key (pyMinIdx key k) then k else pyMinIdx key k := by
  unfold pyMinIdx
  rw [List.range_succ, List.foldl_append]
  rfl

theorem pyMaxIdx_succ (key : Nat → ℝ) (k : Nat) :
    pyMaxIdx key (k + 1) =
      if key (pyMaxIdx key k) < key k then k else pyMaxIdx key k := by
  unfold pyMaxIdx
  rw [List.range_succ, List.foldl_append]
  rfl

/-- `pyMinIdx` returns the first index with minimal key: it is in range, its
key is a lower bound, and every strictly earlier index has a strictly larger
key. -/
theorem pyMinIdx_spec (key : Nat → ℝ) :
    ∀ n, 0 < n →
      pyMinIdx key n < n ∧
      (∀ j, j < n → key (pyMinIdx key n) ≤ key j) ∧
      (∀ j, j < pyMinIdx key n → key (pyMinIdx key n) < key j) := by
  intro n
  induction n with
  | zero => intro h; exact absurd h (lt_irrefl 0)
  | succ k ih =>
    intro _
    rcases Nat.eq_zero_or_pos k with rfl | hk
    · rw [pyMinIdx_succ]
      have h0 : pyMinIdx key 0 = 0 := rfl
      rw [h0, if_neg (lt_irrefl (key 0))]
      refine ⟨by omega, ?_, fun j hj => absurd hj (Nat.not_lt_zero j)⟩
      intro j hj
      have hj0 : j = 0 := by omega
      rw [hj0]
    · obtain ⟨ihlt, ihle, ihstrict⟩ := ih hk
      rw [pyMinIdx_succ]
      by_cases h : key k < key (pyMinIdx key k)
      · rw [if_pos h]
        refine ⟨by omega, ?_, ?_⟩
        · intro j hj
          rcases Nat.lt_succ_iff_lt_or_eq.mp hj with hj1 | rfl
          · exact le_of_lt (lt_of_lt_of_le h (ihle j hj1))
          · exact le_refl _
        · intro j hj
          exact lt_of_lt_of_le h (ihle j hj)
      · rw [if_neg h]
        push_neg at h
        refine ⟨by omega, ?_, ihstrict⟩
        intro j hj
        rcases Nat.lt_succ_iff_lt_or_eq.mp hj with hj1 | rfl
        · exact ihle j hj1
        · exact h

/-- `pyMaxIdx` returns the first index with maximal key. -/
theorem pyMaxIdx_spec (key : Nat → ℝ) :
    ∀ n, 0 < n →
      pyMaxIdx key n < n ∧
      (∀ j, j < n → key j ≤ key (pyMaxIdx key n)) ∧
      (∀ j, j < pyMaxIdx key n → key j < key (pyMaxIdx key n)) := by
  intro n
  induction n with
  | zero => intro h; exact absurd h (lt_irrefl 0)
  | succ k ih =>
    intro _
    rcases Nat.eq_zero_or_pos k with rfl | hk
    · rw [pyMaxIdx_succ]
      have h0 : pyMaxIdx key 0 = 0 := rfl
      rw [h0, if_neg (lt_irrefl (key 0))]
      refine ⟨by omega, ?_, fun j hj => absurd hj (Nat.not_lt_zero j)⟩
      intro j hj
      have hj0 : j = 0 := by omega
      rw [hj0]
    · obtain ⟨ihlt, ihle, ihstrict⟩ := ih hk
      rw [pyMaxIdx_succ]
      by_cases h : key (pyMaxIdx key k) < key k
      · rw [if_pos h]
        refine ⟨by omega, ?_, ?_⟩
        · intro j hj
          rcases Nat.lt_succ_iff_lt_or_eq.mp hj with hj1 | rfl
          · exact le_of_lt (lt_of_le_of_lt (ihle j hj1) h)
          · exact le_refl _
        · intro j hj
          exact lt_of_le_of_lt (ihle j hj) h
      · rw [if_neg h]
        push_neg at h
        refine ⟨by omega, ?_, ihstrict⟩
        intro j hj
        rcases Nat.lt_succ_iff_lt_or_eq.mp hj with hj1 | rfl
        · exact ihle j hj1
        · exact h

/-- `pyMinBy` on a non-empty list returns the first element with minimal
key: some in-range index `i` names the returned element, its key is a lower
bound for the whole list, and every strictly earlier index has a strictly
larger key. -/
theorem pyMinBy_spec {α : Type} [Inhabited α] (key : α → ℝ) (x : α)
    (xs : List α) :
    ∃ i, i < (x :: xs).length ∧
      pyMinBy key (x :: xs) = some ((x :: xs).getD i default) ∧
      (∀ j, j < (x :: xs).length →
        key ((x :: xs).getD i default) ≤ key ((x :: xs).getD j default)) ∧
      (∀ j, j < i →
        key ((x :: xs).getD i default) < key ((x :: xs).getD j default)) := by
  induction xs using List.reverseRecOn with
  | nil =>
    refine ⟨0, by simp, rfl, ?_, fun j hj => absurd hj (Nat.not_lt_zero j)⟩
    intro j hj
    have hj0 : j = 0 := by simp at hj; omega
    rw [hj0]
  | append_singleton ys a ih =>
    obtain ⟨i, h, heq, hle, hstrict⟩ := ih
    have hfold : ys.foldl
        (fun best b => if key b < key best then b else best) x =
        (x :: ys).getD i default := Option.some.inj heq
    have hn : (x :: (ys ++ [a])).length = (x :: ys).length + 1 := by simp
    have hgetl : ∀ j, j < (x :: ys).length →
        (x :: (ys ++ [a])).getD j default = (x :: ys).getD j default := by
      intro j hj
      show ((x :: ys) ++ [a]).getD j default = (x :: ys).getD j default
      have hj1 : j < ((x :: ys) ++ [a]).length := by
        rw [List.length_append]
        omega
      rw [List.getD_eq_getElem _ _ hj1, List.getD_eq_getElem _ _ hj,
        List.getElem_append_left hj]
    have hgeta : (x :: (ys ++ [a])).getD (x :: ys).length default = a := by
      show ((x :: ys) ++ [a]).getD (x :: ys).length default = a
      have hb : (x :: ys).length < ((x :: ys) ++ [a]).length := by
        rw [List.length_append]
        simp
      rw [List.getD_eq_getElem _ _ hb, List.getElem_concat_length _ _ _ rfl]
    have hstep : pyMinBy key (x :: (ys ++ [a])) =
        some (if key a < key ((x :: ys).getD i default)
              then a else (x :: ys).getD i default) := by
      show some ((ys ++ [a]).foldl
        (fun best b => if key b < key best then b else best) x) = _
      rw [List.foldl_append, hfold]
      rfl
    by_cases hc : key a < key ((x :: ys).getD i default)
    · refine ⟨(x :: ys).length, by omega, ?_, ?_, ?_⟩
      · rw [hstep, if_pos hc, hgeta]
      · intro j hj
        rw [hn] at hj
        rw [hgeta]
        rcases Nat.lt_succ_iff_lt_or_eq.mp hj with hj1 | rfl
        · rw [hgetl j hj1]
          exact le_of_lt (lt_of_lt_of_le hc (hle j hj1))
        · rw [hgeta]
      · intro j hji
        rw [hgeta, hgetl j hji]
        exact lt_of_lt_of_le hc (hle j hji)
    · push_neg at hc
      refine ⟨i, by omega, ?_, ?_, ?_⟩
      · rw [hstep, if_neg (not_lt.mpr hc), hgetl i h]
      · intro j hj
        rw [hn] at hj
        rw [hgetl i h]
        rcases Nat.lt_succ_iff_lt_or_eq.mp hj with hj1 | rfl
        · rw [hgetl j hj1]
          exact hle j hj1
        · rw [hgeta]
          exact hc
      · intro j hji
        have hjn : j < (x :: ys).length := lt_trans hji h
        rw [hgetl i h, hgetl j hjn]
        exact hstrict j hji

/-- `pyMaxBy` on a non-empty list returns the first element with maximal
key. -/
theorem pyMaxBy_spec {α : Type} [Inhabited α] (key : α → ℝ) (x : α)
    (xs : List α) :
    ∃ i, i < (x :: xs).length ∧
      pyMaxBy key (x :: xs) = some ((x :: xs).getD i default) ∧
      (∀ j, j < (x :: xs).length →
        key ((x :: xs).getD j default) ≤ key ((x :: xs).getD i default)) ∧
      (∀ j, j < i →
        key ((x :: xs).getD j default) < key ((x :: xs).getD i default)) := by
  induction xs using List.reverseRecOn with
  | nil =>
    refine ⟨0, by simp, rfl, ?_, fun j hj => absurd hj (Nat.not_lt_zero j)⟩
    intro j hj
    have hj0 : j = 0 := by simp at hj; omega
    rw [hj0]
  | append_singleton ys a ih =>
    obtain ⟨i, h, heq, hle, hstrict⟩ := ih
    have hfold : ys.foldl
        (fun best b => if key best < key b then b else best) x =
        (x :: ys).getD i default := Option.some.inj heq
    have hn : (x :: (ys ++ [a])).length = (x :: ys).length + 1 := by simp
    have hgetl : ∀ j, j < (x :: ys).length →
        (x :: (ys ++ [a])).getD j default = (x :: ys).getD j default := by
      intro j hj
      show ((x :: ys) ++ [a]).getD j default = (x :: ys).getD j default
      have hj1 : j < ((x :: ys) ++ [a]).length := by
        rw [List.length_append]
        omega
      rw [List.getD_eq_getElem _ _ hj1, List.getD_eq_getElem _ _ hj,
        List.getElem_append_left hj]
    have hgeta : (x :: (ys ++ [a])).getD (x :: ys).length default = a := by
      show ((x :: ys) ++ [a]).getD (x :: ys).length default = a
      have hb : (x :: ys).length < ((x :: ys) ++ [a]).length := by
        rw [List.length_append]
        simp
      rw [List.getD_eq_getElem _ _ hb, List.getElem_concat_length _ _ _ rfl]
    have hstep : pyMaxBy key (x :: (ys ++ [a])) =
        some (if key ((x :: ys).getD i default) < key a
              then a else (x :: ys).getD i default) := by
      show some ((ys ++ [a]).foldl
        (fun best b => if key best < key b then b else best) x) = _
      rw [List.foldl_append, hfold]
      rfl
    by_cases hc : key ((x :: ys).getD i default) < key a
    · refine ⟨(x :: ys).length, by omega, ?_, ?_, ?_⟩
      · rw [hstep, if_pos hc, hgeta]
      · intro j hj
        rw [hn] at hj
        rw [hgeta]
        rcases Nat.lt_succ_iff_lt_or_eq.mp hj with hj1 | rfl
        · rw [hgetl j hj1]
          exact le_of_lt (lt_of_le_of_lt (hle j hj1) hc)
        · rw [hgeta]
      · intro j hji
        rw [hgeta, hgetl j hji]
        exact lt_of_le_of_lt (hle j hji) hc
    · push_neg at hc
      refine ⟨i, by omega, ?_, ?_, ?_⟩
      · rw [hstep, if_neg (not_lt.mpr hc), hgetl i h]
      · intro j hj
        rw [hn] at hj
        rw [hgetl i h]
        rcases Nat.lt_succ_iff_lt_or_eq.mp hj with hj1 | rfl
        · rw [hgetl j hj1]
          exact hle j hj1
        · rw [hgeta]
          exact hc
      · intro j hji
        have hjn : j < (x :: ys).length := lt_trans hji h
        rw [hgetl i h, hgetl j hjn]
        exact hstrict j hji


/-! ### Pool operations: sizes, eviction, dominance -/

theorem add_to_pool_of_lt (cfg : Config) (pool : List Meme) (m : Meme)
    (h : pool.length < cfg.poolSize) :
    add_to_pool cfg pool m = pool ++ [m] := by
  unfold add_to_pool
  rw [if_neg]
  rw [List.length_append]
  simp
  omega

theorem add_to_pool_length (cfg : Config) (pool : List Meme) (m : Meme)
    (hK : 1 ≤ cfg.poolSize) (h2 : pool.length ≤ cfg.poolSize) :
    1 ≤ (add_to_pool cfg pool m).length ∧
      (add_to_pool cfg pool m).length ≤ cfg.poolSize := by
  unfold add_to_pool
  simp only []
  have hlen : (pool ++ [m]).length = pool.length + 1 := by simp
  by_cases hover : cfg.poolSize < (pool ++ [m]).length
  · rw [if_pos hover]
    have hpos : 0 < (pool ++ [m]).length := by omega
    by_cases hpol : cfg.useUtilitySelection
    · rw [if_pos hpol]
      obtain ⟨hidx, -, -⟩ := pyMinIdx_spec
        (fun i => combined_score cfg ((pool ++ [m]).getD i default))
        (pool ++ [m]).length hpos
      rw [List.length_eraseIdx_of_lt hidx]
      omega
    · rw [if_neg hpol]
      obtain ⟨hidx, -, -⟩ := pyMaxIdx_spec
        (fun i => complexity ((pool ++ [m]).getD i default).pattern)
        (pool ++ [m]).length hpos
      rw [List.length_eraseIdx_of_lt hidx]
      omega
  · rw [if_neg hover]
    omega

theorem foldl_add_to_pool_length (cfg : Config) (ms : List Meme)
    (hK : 1 ≤ cfg.poolSize) :
    ∀ pool : List Meme, 1 ≤ pool.length → pool.length ≤ cfg.poolSize →
      1 ≤ (ms.foldl (add_to_pool cfg) pool).length ∧
        (ms.foldl (add_to_pool cfg) pool).length ≤ cfg.poolSize := by
  induction ms with
  | nil => intro pool h1 h2; exact ⟨h1, h2⟩
  | cons m rest ih =>
    intro pool h1 h2
    rw [List.foldl_cons]
    obtain ⟨g1, g2⟩ := add_to_pool_length cfg pool m hK h2
    exact ih (add_to_pool cfg pool m) g1 g2

/-- C4: starting from any pool within `[1, K]`, every sequence of inserts
keeps the size within `[1, K]`; an insert into a pool strictly below
capacity appends without eviction; an insert into a full pool removes
exactly one meme — the first index attaining minimal combined score under
the utility policy, or maximal complexity under the fidelity policy, so
ties evict the earliest-inserted member. -/
theorem C4_pool_invariant (cfg : Config) (pool : List Meme)
    (hK : 1 ≤ cfg.poolSize) (h1 : 1 ≤ pool.length)
    (h2 : pool.length ≤ cfg.poolSize) :
    (∀ ms : List Meme,
      1 ≤ (ms.foldl (add_to_pool cfg) pool).length ∧
        (ms.foldl (add_to_pool cfg) pool).length ≤ cfg.poolSize) ∧
    (∀ m : Meme, pool.length < cfg.poolSize →
      add_to_pool cfg pool m = pool ++ [m]) ∧
    (∀ m : Meme, pool.length = cfg.poolSize →
      ∃ i, i < (pool ++ [m]).length ∧
        add_to_pool cfg pool m = (pool ++ [m]).eraseIdx i ∧
        (add_to_pool cfg pool m).length = cfg.poolSize ∧
        (cfg.useUtilitySelection = true →
          (∀ j, j < (pool ++ [m]).length →
            combined_score cfg ((pool ++ [m]).getD i default) ≤
              combined_score cfg ((pool ++ [m]).getD j default)) ∧
          (∀ j, j < i →
            combined_score cfg ((pool ++ [m]).getD i default) <
              combined_score cfg ((pool ++ [m]).getD j default))) ∧
        (cfg.useUtilitySelection = false →
          (∀ j, j < (pool ++ [m]).length →
            complexity ((pool ++ [m]).getD j default).pattern ≤
              complexity ((pool ++ [m]).getD i default).pattern) ∧
          (∀ j, j < i →
            complexity ((pool ++ [m]).getD j default).pattern <
              complexity ((pool ++ [m]).getD i default).pattern))) := by
  refine ⟨fun ms => foldl_add_to_pool_length cfg ms hK pool h1 h2,
    fun m h => add_to_pool_of_lt cfg pool m h, ?_⟩
  intro m hfull
  have hlen : (pool ++ [m]).length = pool.length + 1 := by simp
  have hover : cfg.poolSize < (pool ++ [m]).length := by omega
  have hpos : 0 < (pool ++ [m]).length := by omega
  by_cases hpol : cfg.useUtilitySelection
  · obtain ⟨hidx, hle, hstrict⟩ := pyMinIdx_spec
      (fun i => combined_score cfg ((pool ++ [m]).getD i default))
      (pool ++ [m]).length hpos
    have hadd : add_to_pool cfg pool m = (pool ++ [m]).eraseIdx
        (pyMinIdx (fun i => combined_score cfg ((pool ++ [m]).getD i default))
          (pool ++ [m]).length) := by
      unfold add_to_pool
      rw [if_pos hover, if_pos hpol]
    refine ⟨_, hidx, hadd, ?_, fun _ => ⟨hle, hstrict⟩,
      fun hf => absurd (hpol.symm.trans hf) (by decide)⟩
    rw [hadd, List.length_eraseIdx_of_lt hidx]
    omega
  · have hpolf : cfg.useUtilitySelection = false := by
      simpa using hpol
    obtain ⟨hidx, hle, hstrict⟩ := pyMaxIdx_spec
      (fun i => complexity ((pool ++ [m]).getD i default).pattern)
      (pool ++ [m]).length hpos
    have hadd : add_to_pool cfg pool m = (pool ++ [m]).eraseIdx
        (pyMaxIdx (fun i => complexity ((pool ++ [m]).getD i default).pattern)
          (pool ++ [m]).length) := by
      unfold add_to_pool
      rw [if_pos hover, if_neg hpol]
    refine ⟨_, hidx, hadd, ?_,
      fun ht => absurd (hpolf.symm.trans ht) (by decide),
      fun _ => ⟨hle, hstrict⟩⟩
    rw [hadd, List.length_eraseIdx_of_lt hidx]
    omega

/-- Concrete instantiation of `C4_pool_invariant`: a singleton pool under
the configured capacity 5 accepts an insert without eviction. -/
theorem C4_pool_invariant_witness :
    1 ≤ defaultConfig.poolSize ∧
    ∀ m : Meme, ([Meme.mk [0] 0] : List Meme).length < defaultConfig.poolSize →
      add_to_pool defaultConfig [Meme.mk [0] 0] m = [Meme.mk [0] 0] ++ [m] :=
  ⟨by decide,
    (C4_pool_invariant defaultConfig [Meme.mk [0] 0] (by decide) (by decide)
      (by decide)).2.1⟩

/-- C5: on a non-empty pool, `get_dominant_meme` never fails and returns
the pool member at the first index attaining the extremum of the active
policy's score — maximal combined score under the utility policy, minimal
complexity under the fidelity policy; ties resolve to the
earliest-inserted member. -/
theorem C5_get_dominant (cfg : Config) (a : Agent)
    (hne : a.meme_pool ≠ []) :
    ∃ m, get_dominant_meme cfg a = some m ∧
      ∃ i, i < a.meme_pool.length ∧ m = a.meme_pool.getD i default ∧
      (cfg.useUtilitySelection = true →
        (∀ j, j < a.meme_pool.length →
          combined_score cfg (a.meme_pool.getD j default) ≤
            combined_score cfg m) ∧
        (∀ j, j < i →
          combined_score cfg (a.meme_pool.getD j default) <
            combined_score cfg m)) ∧
      (cfg.useUtilitySelection = false →
        (∀ j, j < a.meme_pool.length →
          complexity m.pattern ≤
            complexity (a.meme_pool.getD j default).pattern) ∧
        (∀ j, j < i →
          complexity m.pattern <
            complexity (a.meme_pool.getD j default).pattern)) := by
  obtain ⟨x, xs, hp⟩ : ∃ x xs, a.meme_pool = x :: xs := by
    cases hpool : a.meme_pool with
    | nil => exact absurd hpool hne
    | cons x xs => exact ⟨x, xs, rfl⟩
  unfold get_dominant_meme
  rw [hp]
  by_cases hpol : cfg.useUtilitySelection
  · rw [if_pos hpol]
    obtain ⟨i, hi, heq, hle, hstrict⟩ :=
      pyMaxBy_spec (fun m => combined_score cfg m) x xs
    refine ⟨_, heq, i, hi, rfl, fun _ => ⟨hle, hstrict⟩,
      fun hf => absurd (hpol.symm.trans hf) (by decide)⟩
  · have hpolf : cfg.useUtilitySelection = false := by simpa using hpol
    rw [if_neg hpol]
    obtain ⟨i, hi, heq, hle, hstrict⟩ :=
      pyMinBy_spec (fun m => complexity m.pattern) x xs
    refine ⟨_, heq, i, hi, rfl,
      fun ht => absurd (hpolf.symm.trans ht) (by decide),
      fun _ => ⟨hle, hstrict⟩⟩

/-- Concrete instantiation of `C5_get_dominant` on a singleton pool. -/
theorem C5_get_dominant_witness :
    (Agent.mk 0 0 [Meme.mk [0] 0]).meme_pool ≠ [] ∧
    ∃ m, get_dominant_meme defaultConfig (Agent.mk 0 0 [Meme.mk [0] 0]) = some m :=
  ⟨by decide,
    match C5_get_dominant defaultConfig (Agent.mk 0 0 [Meme.mk [0] 0])
      (by decide) with
    | ⟨m, hm, _⟩ => ⟨m, hm⟩⟩

/-- A non-empty pool always yields a dominant meme, and it is a pool
member (used by the engine-level proofs). -/
theorem get_dominant_eq_some (cfg : Config) (a : Agent)
    (hne : a.meme_pool ≠ []) :
    ∃ d, get_dominant_meme cfg a = some d ∧ d ∈ a.meme_pool := by
  obtain ⟨x, xs, hp⟩ : ∃ x xs, a.meme_pool = x :: xs := by
    cases hpool : a.meme_pool with
    | nil => exact absurd hpool hne
    | cons x xs => exact ⟨x, xs, rfl⟩
  unfold get_dominant_meme
  rw [hp]
  by_cases hpol : cfg.useUtilitySelection
  · rw [if_pos hpol]
    obtain ⟨i, hi, heq, -, -⟩ :=
      pyMaxBy_spec (fun m => combined_score cfg m) x xs
    refine ⟨_, heq, ?_⟩
    rw [List.getD_eq_getElem _ _ hi]
    exact List.getElem_mem hi
  · rw [if_neg hpol]
    obtain ⟨i, hi, heq, -, -⟩ :=
      pyMinBy_spec (fun m => complexity m.pattern) x xs
    refine ⟨_, heq, ?_⟩
    rw [List.getD_eq_getElem _ _ hi]
    exact List.getElem_mem hi

/-- C9: the agent constructor silently truncates to the first `POOL_SIZE`
memes in order, keeps their order, and fails exactly when the truncated
pool is empty; in particular a list at least as long as a positive
capacity always succeeds with exactly `POOL_SIZE` memes. -/
theorem C9_agent_init (cfg : Config) (x y : Nat) (ms : List Meme) :
    (mkAgent cfg x y ms = none ↔ ms.take cfg.poolSize = []) ∧
    (∀ a, mkAgent cfg x y ms = some a →
      a.x = x ∧ a.y = y ∧ a.meme_pool = ms.take cfg.poolSize) ∧
    (cfg.poolSize ≤ ms.length → 1 ≤ cfg.poolSize →
      ∃ a, mkAgent cfg x y ms = some a ∧
        a.meme_pool = ms.take cfg.poolSize ∧
        a.meme_pool.length = cfg.poolSize) := by
  unfold mkAgent
  simp only []
  by_cases h : ms.take cfg.poolSize = []
  · rw [if_pos h]
    refine ⟨⟨fun _ => h, fun _ => rfl⟩, fun a ha => absurd ha (by simp), ?_⟩
    intro hlK hK
    exfalso
    rw [List.take_eq_nil_iff] at h
    rcases h with h | h
    · omega
    · rw [h] at hlK
      simp at hlK
      omega
  · rw [if_neg h]
    refine ⟨⟨fun hc => absurd hc (by simp), fun hc => absurd hc h⟩,
      fun a ha => ?_, fun hlK _ => ⟨_, rfl, rfl, ?_⟩⟩
    · obtain rfl : Agent.mk x y (ms.take cfg.poolSize) = a := Option.some.inj ha
      exact ⟨rfl, rfl, rfl⟩
    · simp only [List.length_take]
      omega

/-- Concrete instantiation of `C9_agent_init`: a 6-meme list under the
configured capacity 5 constructs successfully with exactly 5 memes. -/
theorem C9_agent_init_witness :
    defaultConfig.poolSize ≤ (List.replicate 6 (Meme.mk [0] 0)).length ∧
    1 ≤ defaultConfig.poolSize ∧
    ∃ a, mkAgent defaultConfig 0 0 (List.replicate 6 (Meme.mk [0] 0)) = some a ∧
      a.meme_pool = (List.replicate 6 (Meme.mk [0] 0)).take defaultConfig.poolSize ∧
      a.meme_pool.length = defaultConfig.poolSize :=
  ⟨by decide, by decide,
    (C9_agent_init defaultConfig 0 0 (List.replicate 6 (Meme.mk [0] 0))).2.2
      (by decide) (by decide)⟩

/-! ### Age independence of scoring and selection -/

theorem combined_score_of_pattern_eq (cfg : Config) {m₁ m₂ : Meme}
    (h : m₁.pattern = m₂.pattern) :
    combined_score cfg m₁ = combined_score cfg m₂ := by
  unfold combined_score
  rw [h]

theorem map_pattern_length {pool₁ pool₂ : List Meme}
    (h : pool₁.map Meme.pattern = pool₂.map Meme.pattern) :
    pool₁.length = pool₂.length := by
  have h1 := congrArg List.length h
  simpa using h1

theorem map_pattern_getD {pool₁ pool₂ : List Meme}
    (h : pool₁.map Meme.pattern = pool₂.map Meme.pattern) (i : Nat) :
    (pool₁.getD i default).pattern = (pool₂.getD i default).pattern := by
  have hlen := map_pattern_length h
  by_cases hi : i < pool₁.length
  · have hi2 : i < pool₂.length := hlen ▸ hi
    have hq : (pool₁.map Meme.pattern)[i]? = (pool₂.map Meme.pattern)[i]? := by
      rw [h]
    rw [List.getElem?_map, List.getElem?_map, List.getElem?_eq_getElem hi,
      List.getElem?_eq_getElem hi2] at hq
    simp only [Option.map_some'] at hq
    rw [List.getD_eq_getElem _ _ hi, List.getD_eq_getElem _ _ hi2]
    exact Option.some.inj hq
  · have hi2 : ¬ i < pool₂.length := hlen ▸ hi
    rw [List.getD_eq_default _ _ (by omega), List.getD_eq_default _ _ (by omega)]

/-- The "first index attaining the maximum" of a real sequence is unique. -/
theorem first_max_unique (f : Nat → ℝ) (n i₁ i₂ : Nat) (h₁ : i₁ < n)
    (h₂ : i₂ < n)
    (hle₁ : ∀ j, j < n → f j ≤ f i₁) (hst₁ : ∀ j, j < i₁ → f j < f i₁)
    (hle₂ : ∀ j, j < n → f j ≤ f i₂) (hst₂ : ∀ j, j < i₂ → f j < f i₂) :
    i₁ = i₂ := by
  rcases lt_trichotomy i₁ i₂ with h | h | h
  · have ha := hst₂ i₁ h
    have hb := hle₂ i₂ h₂
    have hc := hle₁ i₂ h₂
    linarith
  · exact h
  · have ha := hst₁ i₂ h
    have hb := hle₂ i₁ h₁
    linarith

/-- The "first index attaining the minimum" of a real sequence is unique. -/
theorem first_min_unique (f : Nat → ℝ) (n i₁ i₂ : Nat) (h₁ : i₁ < n)
    (h₂ : i₂ < n)
    (hle₁ : ∀ j, j < n → f i₁ ≤ f j) (hst₁ : ∀ j, j < i₁ → f i₁ < f j)
    (hle₂ : ∀ j, j < n → f i₂ ≤ f j) (hst₂ : ∀ j, j < i₂ → f i₂ < f j) :
    i₁ = i₂ := by
  apply first_max_unique (fun j => -(f j)) n i₁ i₂ h₁ h₂
  · intro j hj
    simpa using hle₁ j hj
  · intro j hj
    simpa using hst₁ j hj
  · intro j hj
    simpa using hle₂ j hj
  · intro j hj
    simpa using hst₂ j hj

theorem eraseIdx_map_comm {α β : Type} (f : α → β) :
    ∀ (l : List α) (i : Nat), (l.eraseIdx i).map f = (l.map f).eraseIdx i := by
  intro l
  induction l with
  | nil => intro i; simp
  | cons a t ih =>
    intro i
    cases i with
    | zero => simp
    | succ k =>
      simp only [List.eraseIdx, List.map_cons]
      rw [ih k]

/-- C10: a meme's age influences no score — entropy, complexity, utility
and combined score are functions of the pattern alone — and consequently
dominance selection and pool eviction behave identically on pools whose
members carry the same patterns with arbitrary ages. -/
theorem C10_age_independent (cfg : Config) (p : List Nat) (a₁ a₂ : Nat)
    (pool₁ pool₂ : List Meme)
    (hpp : pool₁.map Meme.pattern = pool₂.map Meme.pattern) :
    entropy (Meme.mk p a₁).pattern = entropy (Meme.mk p a₂).pattern ∧
    complexity (Meme.mk p a₁).pattern = complexity (Meme.mk p a₂).pattern ∧
    utility cfg (Meme.mk p a₁).pattern = utility cfg (Meme.mk p a₂).pattern ∧
    combined_score cfg (Meme.mk p a₁) = combined_score cfg (Meme.mk p a₂) ∧
    Option.map Meme.pattern (get_dominant_meme cfg (Agent.mk 0 0 pool₁)) =
      Option.map Meme.pattern (get_dominant_meme cfg (Agent.mk 0 0 pool₂)) ∧
    (add_to_pool cfg pool₁ (Meme.mk p a₁)).map Meme.pattern =
      (add_to_pool cfg pool₂ (Meme.mk p a₂)).map Meme.pattern := by
  have hlen := map_pattern_length hpp
  refine ⟨rfl, rfl, rfl, rfl, ?_, ?_⟩
  · cases hp1 : pool₁ with
    | nil =>
      have hp2 : pool₂ = [] := by
        have h0 : pool₂.length = 0 := by
          rw [← hlen, hp1]
          rfl
        exact List.length_eq_zero.mp h0
      rw [hp2]
    | cons x₁ xs₁ =>
      cases hp2 : pool₂ with
      | nil =>
        rw [hp1, hp2] at hpp
        simp at hpp
      | cons x₂ xs₂ =>
        rw [← hp1, ← hp2]
        unfold get_dominant_meme
        by_cases hpol : cfg.useUtilitySelection
        · rw [if_pos hpol, if_pos hpol]
          obtain ⟨i₁, hi₁, heq₁, hle₁, hst₁⟩ :=
            pyMaxBy_spec (fun m => combined_score cfg m) x₁ xs₁
          obtain ⟨i₂, hi₂, heq₂, hle₂, hst₂⟩ :=
            pyMaxBy_spec (fun m => combined_score cfg m) x₂ xs₂
          rw [← hp1] at heq₁ hle₁ hst₁ hi₁
          rw [← hp2] at heq₂ hle₂ hst₂ hi₂
          have hkey : ∀ j, combined_score cfg (pool₂.getD j default) =
              combined_score cfg (pool₁.getD j default) :=
            fun j => combined_score_of_pattern_eq cfg (map_pattern_getD hpp j).symm
          have hii : i₁ = i₂ := by
            apply first_max_unique
              (fun j => combined_score cfg (pool₁.getD j default))
              pool₁.length i₁ i₂ hi₁ (hlen ▸ hi₂)
            · exact fun j hj => hle₁ j hj
            · exact fun j hj => hst₁ j hj
            · intro j hj
              rw [← hkey j, ← hkey i₂]
              exact hle₂ j (hlen ▸ hj)
            · intro j hj
              rw [← hkey j, ← hkey i₂]
              exact hst₂ j hj
          rw [heq₁, heq₂]
          simp only [Option.map_some']
          congr 1
          rw [map_pattern_getD hpp i₁, hii]
        · rw [if_neg hpol, if_neg hpol]
          obtain ⟨i₁, hi₁, heq₁, hle₁, hst₁⟩ :=
            pyMinBy_spec (fun m => complexity m.pattern) x₁ xs₁
          obtain ⟨i₂, hi₂, heq₂, hle₂, hst₂⟩ :=
            pyMinBy_spec (fun m => complexity m.pattern) x₂ xs₂
          rw [← hp1] at heq₁ hle₁ hst₁ hi₁
          rw [← hp2] at heq₂ hle₂ hst₂ hi₂
          have hkey : ∀ j, complexity (pool₂.getD j default).pattern =
              complexity (pool₁.getD j default).pattern :=
            fun j => by rw [map_pattern_getD hpp j]
          have hii : i₁ = i₂ := by
            apply first_min_unique
              (fun j => complexity (pool₁.getD j default).pattern)
              pool₁.length i₁ i₂ hi₁ (hlen ▸ hi₂)
            · exact fun j hj => hle₁ j hj
            · exact fun j hj => hst₁ j hj
            · intro j hj
              rw [← hkey j, ← hkey i₂]
              exact hle₂ j (hlen ▸ hj)
            · intro j hj
              rw [← hkey j, ← hkey i₂]
              exact hst₂ j hj
          rw [heq₁, heq₂]
          simp only [Option.map_some']
          congr 1
          rw [map_pattern_getD hpp i₁, hii]
  · have hpp1 : (pool₁ ++ [Meme.mk p a₁]).map Meme.pattern =
        (pool₂ ++ [Meme.mk p a₂]).map Meme.pattern := by
      rw [List.map_append, List.map_append, hpp]
      rfl
    have hlen1 : (pool₁ ++ [Meme.mk p a₁]).length =
        (pool₂ ++ [Meme.mk p a₂]).length := by
      simp [hlen]
    unfold add_to_pool
    simp only []
    by_cases hover : cfg.poolSize < (pool₁ ++ [Meme.mk p a₁]).length
    · have hover2 : cfg.poolSize < (pool₂ ++ [Meme.mk p a₂]).length := by
        rw [← hlen1]
        exact hover
      rw [if_pos hover, if_pos hover2]
      by_cases hpol : cfg.useUtilitySelection
      · rw [if_pos hpol, if_pos hpol]
        have hkeys : (fun i => combined_score cfg
            ((pool₁ ++ [Meme.mk p a₁]).getD i default)) =
            (fun i => combined_score cfg
            ((pool₂ ++ [Meme.mk p a₂]).getD i default)) := by
          funext j
          exact combined_score_of_pattern_eq cfg (map_pattern_getD hpp1 j)
        rw [eraseIdx_map_comm, eraseIdx_map_comm, hpp1, hkeys, hlen1]
      · rw [if_neg hpol, if_neg hpol]
        have hkeys : (fun i => complexity
            ((pool₁ ++ [Meme.mk p a₁]).getD i default).pattern) =
            (fun i => complexity
            ((pool₂ ++ [Meme.mk p a₂]).getD i default).pattern) := by
          funext j
          rw [map_pattern_getD hpp1 j]
        rw [eraseIdx_map_comm, eraseIdx_map_comm, hpp1, hkeys, hlen1]
    · have hover2 : ¬ cfg.poolSize < (pool₂ ++ [Meme.mk p a₂]).length := by
        rw [← hlen1]
        exact hover
      rw [if_neg hover, if_neg hover2]
      exact hpp1

/-- Concrete instantiation of `C10_age_independent`: same pattern, ages 0
and 7, and singleton pools with equal patterns but different ages. -/
theorem C10_age_independent_witness :
    ([Meme.mk [0, 1] 3] : List Meme).map Meme.pattern =
      ([Meme.mk [0, 1] 9] : List Meme).map Meme.pattern ∧
    combined_score defaultConfig (Meme.mk [0, 1] 0) =
      combined_score defaultConfig (Meme.mk [0, 1] 7) :=
  ⟨by decide,
    (C10_age_independent defaultConfig [0, 1] 0 7 [Meme.mk [0, 1] 3]
      [Meme.mk [0, 1] 9] (by decide)).2.2.2.1⟩

/-! ### C6: the Moore neighborhood -/

theorem wrap_lt (n : Nat) (hn : 0 < n) (a : Int) : wrap n a < n := by
  unfold wrap
  have hne : (n : Int) ≠ 0 := by exact_mod_cast hn.ne'
  have hpos : (0 : Int) < (n : Int) := by exact_mod_cast hn
  have h1 := Int.emod_nonneg a hne
  have h2 := Int.emod_lt_of_pos a hpos
  omega

theorem wrap_self (n x : Nat) (hx : x < n) : wrap n (x : Int) = x := by
  unfold wrap
  rw [Int.emod_eq_of_lt (by exact_mod_cast Nat.zero_le x) (by exact_mod_cast hx)]
  simp

theorem wrap_neg_one (n : Nat) (hn : 1 ≤ n) : wrap n (-1) = n - 1 := by
  unfold wrap
  have h : (-1 : Int) % (n : Int) = (n : Int) - 1 := by
    have h1 : (-1 : Int) = ((n : Int) - 1) + (n : Int) * (-1) := by ring
    rw [h1, Int.add_mul_emod_self_left]
    apply Int.emod_eq_of_lt
    · omega
    · omega
  rw [h]
  omega

/-- Wrapped coordinates of small offsets around the same base are injective
once the grid dimension is at least 3. -/
theorem wrap_add_inj {n : Nat} (hn : 3 ≤ n) (x : Nat) {d₁ d₂ : Int}
    (h₁ : d₁.natAbs ≤ 1) (h₂ : d₂.natAbs ≤ 1)
    (h : wrap n ((x : Int) + d₁) = wrap n ((x : Int) + d₂)) : d₁ = d₂ := by
  unfold wrap at h
  have hne : (n : Int) ≠ 0 := by
    have hpos : 0 < n := by omega
    exact_mod_cast hpos.ne'
  have e1 := Int.emod_nonneg ((x : Int) + d₁) hne
  have e2 := Int.emod_nonneg ((x : Int) + d₂) hne
  have hmod : ((x : Int) + d₁) % (n : Int) = ((x : Int) + d₂) % (n : Int) := by
    omega
  rw [Int.emod_eq_emod_iff_emod_sub_eq_zero] at hmod
  have hsub : (x : Int) + d₁ - ((x : Int) + d₂) = d₁ - d₂ := by ring
  rw [hsub] at hmod
  have hdvd : (n : Int) ∣ d₁ - d₂ := Int.dvd_of_emod_eq_zero hmod
  have habs : |d₁ - d₂| < (n : Int) := by
    rw [abs_lt]
    constructor <;> omega
  have h0 := Int.eq_zero_of_abs_lt_dvd hdvd habs
  omega

theorem mooreOffsets_abs : ∀ d ∈ mooreOffsets, d.1.natAbs ≤ 1 ∧ d.2.natAbs ≤ 1 := by
  decide

/-- C6: for `N ≥ 3` and on-grid `(x, y)`, the Moore lookup visits exactly 8
pairwise-distinct wrapped coordinates, all on the grid, never `(x, y)`
itself; the returned agents are exactly the grid cells at those
coordinates; and at the corner `(0, 0)` the wrapped coordinates include
`(N-1, N-1)`. -/
theorem C6_moore_neighbors (g : Grid) (x y : Nat) (hN : 3 ≤ g.size)
    (hx : x < g.size) (hy : y < g.size) :
    (mooreCoords g.size x y).length = 8 ∧
    (mooreCoords g.size x y).Nodup ∧
    (∀ c ∈ mooreCoords g.size x y, c.1 < g.size ∧ c.2 < g.size) ∧
    (x, y) ∉ mooreCoords g.size x y ∧
    get_moore_neighbors g x y =
      (mooreCoords g.size x y).map (fun c => get_agent g c.1 c.2) ∧
    (g.size - 1, g.size - 1) ∈ mooreCoords g.size 0 0 := by
  have hNpos : 0 < g.size := by omega
  refine ⟨by simp [mooreCoords, mooreOffsets], ?_, ?_, ?_, rfl, ?_⟩
  · apply List.Nodup.map_on ?_ (by decide)
    intro d₁ hd₁ d₂ hd₂ heq
    obtain ⟨ha₁, hb₁⟩ := mooreOffsets_abs d₁ hd₁
    obtain ⟨ha₂, hb₂⟩ := mooreOffsets_abs d₂ hd₂
    have h1 := congrArg Prod.fst heq
    have h2 := congrArg Prod.snd heq
    simp only [] at h1 h2
    have hd1 := wrap_add_inj hN x ha₁ ha₂ h1
    have hd2 := wrap_add_inj hN y hb₁ hb₂ h2
    exact Prod.ext hd1 hd2
  · intro c hc
    obtain ⟨d, hd, rfl⟩ := List.mem_map.mp hc
    exact ⟨wrap_lt g.size hNpos _, wrap_lt g.size hNpos _⟩
  · intro hmem
    obtain ⟨d, hd, heq⟩ := List.mem_map.mp hmem
    obtain ⟨ha, hb⟩ := mooreOffsets_abs d hd
    have h1 := congrArg Prod.fst heq
    have h2 := congrArg Prod.snd heq
    simp only [] at h1 h2
    have h1w : wrap g.size ((x : Int) + d.1) = wrap g.size ((x : Int) + 0) := by
      rw [add_zero, wrap_self g.size x hx]
      exact h1
    have h2w : wrap g.size ((y : Int) + d.2) = wrap g.size ((y : Int) + 0) := by
      rw [add_zero, wrap_self g.size y hy]
      exact h2
    have hd1 : d.1 = 0 := wrap_add_inj hN x ha (by decide) h1w
    have hd2 : d.2 = 0 := wrap_add_inj hN y hb (by decide) h2w
    have hd0 : d = ((0 : Int), (0 : Int)) := Prod.ext hd1 hd2
    rw [hd0] at hd
    exact absurd hd (by decide)
  · apply List.mem_map.mpr
    refine ⟨(-1, -1), by decide, ?_⟩
    have h00 : ((0 : Nat) : Int) + (-1 : Int) = -1 := by simp
    rw [h00, wrap_neg_one g.size (by omega)]

/-- Concrete instantiation of `C6_moore_neighbors` at the corner of a 3×3
grid. -/
theorem C6_moore_neighbors_witness :
    3 ≤ (Grid.mk 3 []).size ∧
    (mooreCoords (Grid.mk 3 []).size 0 0).length = 8 ∧
    ((Grid.mk 3 []).size - 1, (Grid.mk 3 []).size - 1) ∈
      mooreCoords (Grid.mk 3 []).size 0 0 :=
  ⟨by decide,
    (C6_moore_neighbors (Grid.mk 3 []) 0 0 (by decide) (by decide) (by decide)).1,
    (C6_moore_neighbors (Grid.mk 3 []) 0 0 (by decide) (by decide)
      (by decide)).2.2.2.2.2⟩

/-! ### C7: atomic full replacement -/

/-- C7: `set_all_agents` fails exactly when the supplied list does not hold
`N²` agents — returning the grid unchanged, since the failing branch
produces no new grid — and on success replaces every cell with the supplied
list; the external phase's only grid write is one `set_all_agents` call on
the list of fully computed new agents. -/
theorem C7_set_all_agents (g : Grid) (agents : List Agent) :
    (set_all_agents g agents = none ↔ agents.length ≠ g.size * g.size) ∧
    (∀ g2, set_all_agents g agents = some g2 →
      g2.size = g.size ∧ g2.cells = agents) ∧
    (∀ cfg r, (external_dynamics_phase cfg g r).1 =
      set_all_agents g
        (mapRng (external_update cfg g) ((get_all_agents g).map Agent.copy) r).1) := by
  refine ⟨?_, ?_, fun cfg r => rfl⟩ <;> unfold set_all_agents
  · by_cases h : agents.length = g.size * g.size
    · rw [if_pos h]
      exact ⟨fun hc => absurd hc (by simp), fun hc => absurd h hc⟩
    · rw [if_neg h]
      exact ⟨fun _ => h, fun _ => rfl⟩
  · by_cases h : agents.length = g.size * g.size
    · rw [if_pos h]
      intro g2 hg2
      obtain rfl : Grid.mk g.size agents = g2 := Option.some.inj hg2
      exact ⟨rfl, rfl⟩
    · rw [if_neg h]
      intro g2 hg2
      exact absurd hg2 (by simp)

/-- Concrete instantiation of `C7_set_all_agents`: an empty replacement
list on a 1×1 grid is rejected. -/
theorem C7_set_all_agents_witness :
    set_all_agents (Grid.mk 1 [Agent.mk 0 0 [Meme.mk [0] 0]]) [] = none :=
  (C7_set_all_agents (Grid.mk 1 [Agent.mk 0 0 [Meme.mk [0] 0]]) []).1.mpr
    (by decide)

/-! ### Engine infrastructure: rng-threaded maps and well-formedness -/

theorem Agent.copy_eq (a : Agent) : a.copy = a := by
  unfold Agent.copy
  have hmap : a.meme_pool.map (fun m => Meme.mk m.pattern m.age) = a.meme_pool := by
    have hid : (fun m : Meme => Meme.mk m.pattern m.age) = id := by
      funext m
      cases m
      rfl
    rw [hid, List.map_id]
  rw [hmap]

theorem map_copy_eq (l : List Agent) : l.map Agent.copy = l := by
  have hid : Agent.copy = id := funext Agent.copy_eq
  rw [hid, List.map_id]

theorem randoms_snd (n : Nat) : ∀ r : Rng, (r.randoms n).2 = r.advance n := by
  induction n with
  | zero => intro r; simp [Rng.randoms, Rng.advance]
  | succ k ih =>
    intro r
    simp only [Rng.randoms, Rng.next, ih, Rng.advance]
    congr 1
    omega

theorem randoms_fst (n : Nat) : ∀ r : Rng,
    (r.randoms n).1 = (List.range n).map (fun j => r.u (r.pos + j)) := by
  induction n with
  | zero => intro r; simp [Rng.randoms]
  | succ k ih =>
    intro r
    simp only [Rng.randoms, Rng.next, ih, List.range_succ_eq_map, List.map_cons,
      List.map_map]
    refine congrArg₂ List.cons (by simp) ?_
    apply List.map_congr_left
    intro j hj
    simp only [Rng.advance, Function.comp]
    congr 1
    omega

theorem randoms_length (n : Nat) (r : Rng) : (r.randoms n).1.length = n := by
  rw [randoms_fst]
  simp

theorem mapRng_length {α β : Type} (f : α → Rng → β × Rng) :
    ∀ (l : List α) (r : Rng), (mapRng f l r).1.length = l.length := by
  intro l
  induction l with
  | nil => intro r; rfl
  | cons a as ih =>
    intro r
    simp only [mapRng, List.length_cons]
    rw [ih]

/-- The `i`-th output of an rng-threaded map is the update of the `i`-th
input under the rng state left after processing the first `i` inputs:
each output depends only on its own input and its rng slice. -/
theorem mapRng_getD {α β : Type} [Inhabited α] [Inhabited β]
    (f : α → Rng → β × Rng) :
    ∀ (l : List α) (r : Rng) (i : Nat), i < l.length →
      (mapRng f l r).1.getD i default =
        (f (l.getD i default) (mapRng f (l.take i) r).2).1 := by
  intro l
  induction l with
  | nil => intro r i hi; simp at hi
  | cons a as ih =>
    intro r i hi
    cases i with
    | zero =>
      simp only [mapRng, List.take_zero, List.getD_cons_zero]
    | succ k =>
      have hk : k < as.length := by simpa using hi
      simp only [mapRng, List.getD_cons_succ, List.take_succ_cons]
      exact ih (f a r).2 k hk

/-- An rng-threaded map over inputs on which the update consumes exactly
`c` draws consumes exactly `length * c` draws. -/
theorem mapRng_pos {α β : Type} (f : α → Rng → β × Rng) (P : α → Prop)
    (c : Nat) (hf : ∀ a r, P a → (f a r).2.pos = r.pos + c) :
    ∀ (l : List α) (r : Rng), (∀ a ∈ l, P a) →
      (mapRng f l r).2.pos = r.pos + l.length * c := by
  intro l
  induction l with
  | nil => intro r _; simp [mapRng]
  | cons a as ih =>
    intro r hl
    simp only [mapRng, List.length_cons]
    rw [ih (f a r).2 (fun b hb => hl b (List.mem_cons_of_mem a hb)),
      hf a r (hl a (List.mem_cons_self a as))]
    ring

/-- Well-formedness of a grid: the canonical cell count, a positive
dimension, and every pool non-empty with patterns of the configured
length. -/
def WFGrid (cfg : Config) (g : Grid) : Prop :=
  g.cells.length = g.size * g.size ∧ 0 < g.size ∧
  ∀ a ∈ g.cells, a.meme_pool ≠ [] ∧
    ∀ m ∈ a.meme_pool, m.pattern.length = cfg.memeLength

theorem add_to_pool_ne_nil (cfg : Config) (pool : List Meme) (m : Meme)
    (hK : 1 ≤ cfg.poolSize) : add_to_pool cfg pool m ≠ [] := by
  apply List.ne_nil_of_length_pos
  unfold add_to_pool
  simp only []
  have hlen : (pool ++ [m]).length = pool.length + 1 := by simp
  by_cases hover : cfg.poolSize < (pool ++ [m]).length
  · rw [if_pos hover]
    have hpos : 0 < (pool ++ [m]).length := by omega
    by_cases hpol : cfg.useUtilitySelection
    · rw [if_pos hpol]
      obtain ⟨hidx, -, -⟩ := pyMinIdx_spec
        (fun i => combined_score cfg ((pool ++ [m]).getD i default))
        (pool ++ [m]).length hpos
      rw [List.length_eraseIdx_of_lt hidx]
      omega
    · rw [if_neg hpol]
      obtain ⟨hidx, -, -⟩ := pyMaxIdx_spec
        (fun i => complexity ((pool ++ [m]).getD i default).pattern)
        (pool ++ [m]).length hpos
      rw [List.length_eraseIdx_of_lt hidx]
      omega
  · rw [if_neg hover]
    omega

theorem add_to_pool_subset (cfg : Config) (pool : List Meme) (m : Meme) :
    ∀ m2 ∈ add_to_pool cfg pool m, m2 ∈ pool ++ [m] := by
  intro m2 hm2
  unfold add_to_pool at hm2
  simp only [] at hm2
  by_cases hover : cfg.poolSize < (pool ++ [m]).length
  · rw [if_pos hover] at hm2
    by_cases hpol : cfg.useUtilitySelection
    · rw [if_pos hpol] at hm2
      exact List.mem_of_mem_eraseIdx hm2
    · rw [if_neg hpol] at hm2
      exact List.mem_of_mem_eraseIdx hm2
  · rw [if_neg hover] at hm2
    exact hm2

theorem copy_with_mutation_snd (cfg : Config) (m : Meme) (mu : ℝ) (r : Rng) :
    (copy_with_mutation cfg m mu r).2 = r.advance m.pattern.length :=
  randoms_snd m.pattern.length r

theorem copy_with_mutation_pattern_length (cfg : Config) (m : Meme)
    (mu : ℝ) (r : Rng) :
    (copy_with_mutation cfg m mu r).1.pattern.length = m.pattern.length := by
  show (List.zipWith _ m.pattern (r.randoms m.pattern.length).1).length = _
  rw [List.length_zipWith, randoms_length]
  exact Nat.min_self _

theorem getD_mem {α : Type} [Inhabited α] (l : List α) (i : Nat)
    (hi : i < l.length) : l.getD i default ∈ l := by
  rw [List.getD_eq_getElem _ _ hi]
  exact List.getElem_mem hi

/-- The per-agent internal update (rehearse then age): the position fields
are preserved, the pool stays non-empty, pattern lengths are preserved, and
exactly `1 + L` draws are consumed. -/
theorem internal_agent_spec (cfg : Config) (a : Agent) (r : Rng)
    (hK : 1 ≤ cfg.poolSize) (hne : a.meme_pool ≠ [])
    (hlen : ∀ m ∈ a.meme_pool, m.pattern.length = cfg.memeLength) :
    (internal_rehearsal cfg a r).1.x = a.x ∧
    (internal_rehearsal cfg a r).1.y = a.y ∧
    (internal_rehearsal cfg a r).1.meme_pool ≠ [] ∧
    (∀ m ∈ (internal_rehearsal cfg a r).1.meme_pool,
      m.pattern.length = cfg.memeLength) ∧
    (internal_rehearsal cfg a r).2.pos = r.pos + (1 + cfg.memeLength) := by
  have hpool : 0 < a.meme_pool.length := List.length_pos.mpr hne
  have hidxlt : (r.choiceIdx a.meme_pool.length).1 < a.meme_pool.length :=
    Nat.mod_lt _ hpool
  have hsrc : a.meme_pool.getD (r.choiceIdx a.meme_pool.length).1 default ∈
      a.meme_pool := getD_mem _ _ hidxlt
  have hsrclen : (a.meme_pool.getD (r.choiceIdx a.meme_pool.length).1
      default).pattern.length = cfg.memeLength := hlen _ hsrc
  refine ⟨rfl, rfl, add_to_pool_ne_nil cfg _ _ hK, ?_, ?_⟩
  · intro m hm
    rcases List.mem_append.mp (add_to_pool_subset cfg _ _ m hm) with h | h
    · exact hlen m h
    · have hm2 : m = (copy_with_mutation cfg
          (a.meme_pool.getD (r.choiceIdx a.meme_pool.length).1 default)
          cfg.muBaseInternal (r.choiceIdx a.meme_pool.length).2).1 := by
        simpa using h
      rw [hm2, copy_with_mutation_pattern_length, hsrclen]
  · show (copy_with_mutation cfg
        (a.meme_pool.getD (r.choiceIdx a.meme_pool.length).1 default)
        cfg.muBaseInternal (r.choiceIdx a.meme_pool.length).2).2.pos = _
    rw [copy_with_mutation_snd]
    rw [hsrclen]
    show r.pos + 1 + cfg.memeLength = _
    omega

/-- Outputs of an rng-threaded map inherit any property every update
establishes. -/
theorem mapRng_mem {α β : Type} (f : α → Rng → β × Rng) (Q : β → Prop) :
    ∀ (l : List α) (r : Rng), (∀ a ∈ l, ∀ r2 : Rng, Q (f a r2).1) →
      ∀ b ∈ (mapRng f l r).1, Q b := by
  intro l
  induction l with
  | nil => intro r _ b hb; simp [mapRng] at hb
  | cons a as ih =>
    intro r hl b hb
    rcases List.mem_cons.mp hb with rfl | hb2
    · exact hl a (List.mem_cons_self a as) r
    · exact ih (f a r).2 (fun c hc r2 => hl c (List.mem_cons_of_mem a hc) r2) b hb2

theorem age_memes_pool_ne_nil (a : Agent) (h : a.meme_pool ≠ []) :
    (age_memes a).meme_pool ≠ [] := by
  unfold age_memes
  simpa using h

theorem age_memes_pattern_length (cfg : Config) (a : Agent)
    (h : ∀ m ∈ a.meme_pool, m.pattern.length = cfg.memeLength) :
    ∀ m ∈ (age_memes a).meme_pool, m.pattern.length = cfg.memeLength := by
  intro m hm
  unfold age_memes at hm
  obtain ⟨m0, hm0, rfl⟩ := List.mem_map.mp hm
  exact h m0 hm0

/-- The internal phase keeps the grid dimensions, preserves well-formedness,
and consumes exactly `1 + L` draws per agent in canonical order. -/
theorem internal_phase_spec (cfg : Config) (g : Grid) (r : Rng)
    (hK : 1 ≤ cfg.poolSize) (hwf : WFGrid cfg g) :
    (internal_dynamics_phase cfg g r).1.size = g.size ∧
    (internal_dynamics_phase cfg g r).1.cells.length = g.cells.length ∧
    WFGrid cfg (internal_dynamics_phase cfg g r).1 ∧
    (internal_dynamics_phase cfg g r).2.pos =
      r.pos + g.cells.length * (1 + cfg.memeLength) := by
  obtain ⟨hcount, hNpos, hcells⟩ := hwf
  refine ⟨rfl, mapRng_length _ g.cells r, ⟨?_, hNpos, ?_⟩, ?_⟩
  · show (mapRng (internal_agent_step cfg) g.cells r).1.length = g.size * g.size
    rw [mapRng_length]
    exact hcount
  · exact mapRng_mem (internal_agent_step cfg)
      (fun a2 => a2.meme_pool ≠ [] ∧
        ∀ m ∈ a2.meme_pool, m.pattern.length = cfg.memeLength) g.cells r
      (fun a ha r2 => by
        obtain ⟨-, -, hne, hlen, -⟩ := internal_agent_spec cfg a r2 hK
          (hcells a ha).1 (hcells a ha).2
        exact ⟨age_memes_pool_ne_nil _ hne,
          age_memes_pattern_length cfg _ hlen⟩)
  · show (mapRng (internal_agent_step cfg) g.cells r).2.pos = _
    apply mapRng_pos (internal_agent_step cfg)
      (fun a => a.meme_pool ≠ [] ∧
        ∀ m ∈ a.meme_pool, m.pattern.length = cfg.memeLength)
      (1 + cfg.memeLength)
    · intro a r2 hP
      exact (internal_agent_spec cfg a r2 hK hP.1 hP.2).2.2.2.2
    · exact hcells

theorem get_moore_neighbors_length (g : Grid) (x y : Nat) :
    (get_moore_neighbors g x y).length = 8 := by
  simp [get_moore_neighbors, mooreCoords, mooreOffsets]

theorem get_agent_mem (g : Grid) (hcount : g.cells.length = g.size * g.size)
    (x y : Nat) (hx : x < g.size) (hy : y < g.size) :
    get_agent g x y ∈ g.cells := by
  unfold get_agent
  apply getD_mem
  rw [hcount]
  calc x * g.size + y < x * g.size + g.size := by omega
    _ = (x + 1) * g.size := by ring
    _ ≤ g.size * g.size := Nat.mul_le_mul_right g.size (by omega)

theorem get_moore_neighbors_mem (g : Grid)
    (hcount : g.cells.length = g.size * g.size) (hNpos : 0 < g.size)
    (x y : Nat) : ∀ b ∈ get_moore_neighbors g x y, b ∈ g.cells := by
  intro b hb
  obtain ⟨c, hc, rfl⟩ := List.mem_map.mp hb
  obtain ⟨d, hd, rfl⟩ := List.mem_map.mp hc
  exact get_agent_mem g hcount _ _ (wrap_lt g.size hNpos _) (wrap_lt g.size hNpos _)

/-- The per-cell external update on a well-formed old grid: one neighbor
draw selects a Moore neighbor of the **old** grid, that old neighbor's
dominant meme exists, and the new agent is the old agent with the mutated
dominant inserted; exactly `1 + L` draws are consumed. -/
theorem external_update_spec (cfg : Config) (g : Grid) (a : Agent) (r : Rng)
    (_hK : 1 ≤ cfg.poolSize) (hwf : WFGrid cfg g) :
    ∃ d : Meme,
      get_dominant_meme cfg
        ((get_moore_neighbors g a.x a.y).getD
          (r.z r.pos % (get_moore_neighbors g a.x a.y).length) default) =
        some d ∧
      (get_moore_neighbors g a.x a.y).getD
          (r.z r.pos % (get_moore_neighbors g a.x a.y).length) default ∈
        g.cells ∧
      d.pattern.length = cfg.memeLength ∧
      (external_update cfg g a r).1 =
        { a with meme_pool := add_to_pool cfg a.meme_pool
                               (copy_with_mutation cfg d cfg.muBaseExternal
                                 (r.advance 1)).1 } ∧
      (external_update cfg g a r).2 =
        (copy_with_mutation cfg d cfg.muBaseExternal (r.advance 1)).2 ∧
      (external_update cfg g a r).2.pos = r.pos + (1 + cfg.memeLength) := by
  obtain ⟨hcount, hNpos, hcells⟩ := hwf
  have hlen8 : (get_moore_neighbors g a.x a.y).length = 8 :=
    get_moore_neighbors_length g a.x a.y
  have hidxlt : r.z r.pos % (get_moore_neighbors g a.x a.y).length <
      (get_moore_neighbors g a.x a.y).length := by
    apply Nat.mod_lt
    omega
  have hselmem : (get_moore_neighbors g a.x a.y).getD
      (r.z r.pos % (get_moore_neighbors g a.x a.y).length) default ∈
      g.cells :=
    get_moore_neighbors_mem g hcount hNpos a.x a.y _ (getD_mem _ _ hidxlt)
  obtain ⟨d, hd, hdmem⟩ := get_dominant_eq_some cfg _ (hcells _ hselmem).1
  have hdlen : d.pattern.length = cfg.memeLength := (hcells _ hselmem).2 d hdmem
  have hmatch : external_update cfg g a r =
      match get_dominant_meme cfg
        ((get_moore_neighbors g a.x a.y).getD
          (r.z r.pos % (get_moore_neighbors g a.x a.y).length) default) with
      | some d2 => receive_meme cfg a d2 (r.advance 1)
      | none => (a, r.advance 1) := rfl
  rw [hd] at hmatch
  refine ⟨d, hd, hselmem, hdlen, ?_, ?_, ?_⟩
  · rw [hmatch]
    rfl
  · rw [hmatch]
    rfl
  · rw [hmatch]
    show (copy_with_mutation cfg d cfg.muBaseExternal (r.advance 1)).2.pos = _
    rw [copy_with_mutation_snd, hdlen]
    show r.pos + 1 + cfg.memeLength = _
    omega

/-- The external phase on a well-formed grid: it publishes, in a single
`set_all_agents` call, the list of new agents computed solely from the old
grid, preserves well-formedness, and consumes `1 + L` draws per cell. -/
theorem external_phase_spec (cfg : Config) (g : Grid) (r : Rng)
    (hK : 1 ≤ cfg.poolSize) (hwf : WFGrid cfg g) :
    ∃ g2, (external_dynamics_phase cfg g r).1 = some g2 ∧
      g2.size = g.size ∧
      g2.cells = (mapRng (external_update cfg g) g.cells r).1 ∧
      (external_dynamics_phase cfg g r).2 =
        (mapRng (external_update cfg g) g.cells r).2 ∧
      WFGrid cfg g2 ∧
      (external_dynamics_phase cfg g r).2.pos =
        r.pos + g.cells.length * (1 + cfg.memeLength) := by
  have hcopy : (get_all_agents g).map Agent.copy = g.cells := map_copy_eq g.cells
  have hphase : external_dynamics_phase cfg g r =
      (set_all_agents g (mapRng (external_update cfg g) g.cells r).1,
        (mapRng (external_update cfg g) g.cells r).2) := by
    unfold external_dynamics_phase
    rw [hcopy]
  obtain ⟨hcount, hNpos, hcells⟩ := hwf
  have hlen : (mapRng (external_update cfg g) g.cells r).1.length =
      g.size * g.size := by
    rw [mapRng_length]
    exact hcount
  have hset : set_all_agents g (mapRng (external_update cfg g) g.cells r).1 =
      some (Grid.mk g.size (mapRng (external_update cfg g) g.cells r).1) := by
    unfold set_all_agents
    rw [if_pos hlen]
  refine ⟨Grid.mk g.size (mapRng (external_update cfg g) g.cells r).1,
    ?_, rfl, rfl, ?_, ⟨hlen, hNpos, ?_⟩, ?_⟩
  · rw [hphase]
    exact hset
  · rw [hphase]
  · exact mapRng_mem (external_update cfg g)
      (fun a2 => a2.meme_pool ≠ [] ∧
        ∀ m ∈ a2.meme_pool, m.pattern.length = cfg.memeLength) g.cells r
      (fun a ha r2 => by
        obtain ⟨d, -, -, hdlen, hout, -, -⟩ :=
          external_update_spec cfg g a r2 hK ⟨hcount, hNpos, hcells⟩
        rw [hout]
        refine ⟨add_to_pool_ne_nil cfg _ _ hK, ?_⟩
        intro m hm
        rcases List.mem_append.mp (add_to_pool_subset cfg _ _ m hm) with h | h
        · exact (hcells a ha).2 m h
        · have hm2 : m = (copy_with_mutation cfg d cfg.muBaseExternal
              (r2.advance 1)).1 := by simpa using h
          rw [hm2, copy_with_mutation_pattern_length, hdlen])
  · rw [hphase]
    show (mapRng (external_update cfg g) g.cells r).2.pos = _
    apply mapRng_pos (external_update cfg g) (fun _ => True)
      (1 + cfg.memeLength)
    · intro a r2 _
      obtain ⟨d, -, -, -, -, -, hpos⟩ :=
        external_update_spec cfg g a r2 hK ⟨hcount, hNpos, hcells⟩
      exact hpos
    · intro a _
      trivial

instance (cfg : Config) (g : Grid) : Decidable (WFGrid cfg g) := by
  unfold WFGrid
  infer_instance

/-- One full step on a well-formed grid: it succeeds, publishes exactly the
rng-threaded map of the external update over the post-internal grid,
increments the generation, preserves well-formedness, and consumes
`2 · N² · (1 + L)` draws. -/
theorem step_spec (cfg : Config) (e : SimulationEngine) (hK : 1 ≤ cfg.poolSize)
    (hwf : WFGrid cfg e.grid) :
    ∃ e', step cfg e = some e' ∧
      e'.grid.size = e.grid.size ∧
      e'.grid.cells =
        (mapRng (external_update cfg (internal_dynamics_phase cfg e.grid e.rng).1)
          (internal_dynamics_phase cfg e.grid e.rng).1.cells
          (internal_dynamics_phase cfg e.grid e.rng).2).1 ∧
      e'.generation = e.generation + 1 ∧
      WFGrid cfg e'.grid ∧
      e'.rng.pos = e.rng.pos + 2 * (e.grid.cells.length * (1 + cfg.memeLength)) := by
  obtain ⟨hsz1, hclen1, hwf1, hpos1⟩ := internal_phase_spec cfg e.grid e.rng hK hwf
  obtain ⟨g2, hsome, hsz2, hcells2, hrng2, hwf2, hpos2⟩ :=
    external_phase_spec cfg (internal_dynamics_phase cfg e.grid e.rng).1
      (internal_dynamics_phase cfg e.grid e.rng).2 hK hwf1
  have hstep : step cfg e =
      match (external_dynamics_phase cfg
          (internal_dynamics_phase cfg e.grid e.rng).1
          (internal_dynamics_phase cfg e.grid e.rng).2).1 with
      | some gg => some (SimulationEngine.mk gg
          (external_dynamics_phase cfg
            (internal_dynamics_phase cfg e.grid e.rng).1
            (internal_dynamics_phase cfg e.grid e.rng).2).2
          (e.generation + 1))
      | none => none := rfl
  rw [hsome] at hstep
  refine ⟨_, hstep, hsz2.trans hsz1, hcells2, rfl, hwf2, ?_⟩
  show (external_dynamics_phase cfg
      (internal_dynamics_phase cfg e.grid e.rng).1
      (internal_dynamics_phase cfg e.grid e.rng).2).2.pos = _
  rw [hclen1] at hpos2
  omega

/-- C1: one `step()` always succeeds on a well-formed grid, and each
post-step cell is the post-internal ("pre-phase-2") cell extended with the
mutated dominant meme of a Moore neighbor looked up exclusively in the
post-internal grid `g1`: the displayed formula mentions only `g1`, the rng
slice of that cell, and one final published list — new agents never read
from other new agents, and the grid changes once, via `set_all_agents`. -/
theorem C1_double_buffer (cfg : Config) (e : SimulationEngine)
    (hK : 1 ≤ cfg.poolSize) (hwf : WFGrid cfg e.grid) :
    ∃ e', step cfg e = some e' ∧
      e'.grid.cells.length = e.grid.cells.length ∧
      ∀ i, i < e.grid.cells.length →
        ∃ d : Meme,
          (let g1 := (internal_dynamics_phase cfg e.grid e.rng).1
           let r1 := (internal_dynamics_phase cfg e.grid e.rng).2
           let ri := (mapRng (external_update cfg g1) (g1.cells.take i) r1).2
           let a := g1.cells.getD i default
           let ns := get_moore_neighbors g1 a.x a.y
           get_dominant_meme cfg (ns.getD (ri.z ri.pos % ns.length) default) =
             some d ∧
           ns.getD (ri.z ri.pos % ns.length) default ∈ g1.cells ∧
           e'.grid.cells.getD i default =
             { a with meme_pool := add_to_pool cfg a.meme_pool
                                     (copy_with_mutation cfg d
                                       cfg.muBaseExternal (ri.advance 1)).1 }) := by
  obtain ⟨hsz1, hclen1, hwf1, -⟩ := internal_phase_spec cfg e.grid e.rng hK hwf
  obtain ⟨e', hstep, -, hcells, -, -, -⟩ := step_spec cfg e hK hwf
  refine ⟨e', hstep, ?_, ?_⟩
  · rw [hcells, mapRng_length]
    exact hclen1
  · intro i hi
    have hi1 : i < (internal_dynamics_phase cfg e.grid e.rng).1.cells.length := by
      rw [hclen1]
      exact hi
    have hchar := mapRng_getD
      (external_update cfg (internal_dynamics_phase cfg e.grid e.rng).1)
      (internal_dynamics_phase cfg e.grid e.rng).1.cells
      (internal_dynamics_phase cfg e.grid e.rng).2 i hi1
    obtain ⟨d, hdom, hmem, -, hout, -, -⟩ := external_update_spec cfg
      (internal_dynamics_phase cfg e.grid e.rng).1
      ((internal_dynamics_phase cfg e.grid e.rng).1.cells.getD i default)
      ((mapRng (external_update cfg (internal_dynamics_phase cfg e.grid e.rng).1)
        ((internal_dynamics_phase cfg e.grid e.rng).1.cells.take i)
        (internal_dynamics_phase cfg e.grid e.rng).2).2) hK hwf1
    refine ⟨d, hdom, hmem, ?_⟩
    rw [hcells, hchar, hout]

/-- Concrete instantiation of `C1_double_buffer` on a well-formed 1×1 grid
with one length-16 meme per pool. -/
theorem C1_double_buffer_witness :
    1 ≤ defaultConfig.poolSize ∧
    WFGrid defaultConfig
      (Grid.mk 1 [Agent.mk 0 0 [Meme.mk balancedPattern16 0]]) ∧
    ∃ e', step defaultConfig
      (SimulationEngine.mk (Grid.mk 1 [Agent.mk 0 0 [Meme.mk balancedPattern16 0]])
        (Rng.mk (fun _ => 0) (fun _ => 0) 0) 0) = some e' :=
  ⟨by decide, by decide,
    match C1_double_buffer defaultConfig
      (SimulationEngine.mk (Grid.mk 1 [Agent.mk 0 0 [Meme.mk balancedPattern16 0]])
        (Rng.mk (fun _ => 0) (fun _ => 0) 0) 0) (by decide) (by decide) with
    | ⟨e', hs, _, _⟩ => ⟨e', hs⟩⟩

/-! ### Aggregate statistics (`Grid.get_grid_stats`) -/

/-- `np.mean`. -/
noncomputable def listMean (l : List ℝ) : ℝ := l.sum / (l.length : ℝ)

/-- `np.std` (population standard deviation). -/
noncomputable def listStd (l : List ℝ) : ℝ :=
  Real.sqrt (listMean (l.map (fun x => (x - listMean l) ^ 2)))

/-- `np.min` (raises on empty input; junk value 0 there). -/
noncomputable def listMin : List ℝ → ℝ
  | [] => 0
  | x :: xs => xs.foldl min x

/-- `np.max` (raises on empty input; junk value 0 there). -/
noncomputable def listMax : List ℝ → ℝ
  | [] => 0
  | x :: xs => xs.foldl max x

/-- The statistics dictionary returned by `Grid.get_grid_stats`. -/
structure GridStats where
  avg_dominant_complexity : ℝ
  std_dominant_complexity : ℝ
  min_dominant_complexity : ℝ
  max_dominant_complexity : ℝ
  avg_dominant_utility : ℝ
  std_dominant_utility : ℝ
  min_dominant_utility : ℝ
  max_dominant_utility : ℝ
  avg_dominant_score : ℝ
  avg_pool_complexity : ℝ
  avg_pool_utility : ℝ
  unique_patterns : Nat
  total_patterns : Nat
  pattern_diversity : ℝ

/-- `Grid.get_grid_stats`: pure reductions over dominant memes and pools
(a dominant lookup on an empty pool would raise in the source; modelled by
the junk default meme, unreachable on well-formed grids). -/
noncomputable def get_grid_stats (cfg : Config) (g : Grid) : GridStats :=
  let all_agents := get_all_agents g
  let doms := all_agents.map (fun a => (get_dominant_meme cfg a).getD default)
  let dominant_complexities := doms.map (fun d => complexity d.pattern)
  let dominant_utilities := doms.map (fun d => utility cfg d.pattern)
  let dominant_scores := doms.map (fun d => combined_score cfg d)
  let all_memes := all_agents.flatMap (fun a => a.meme_pool)
  let all_complexities := all_memes.map (fun m => complexity m.pattern)
  let all_utilities := all_memes.map (fun m => utility cfg m.pattern)
  let uniques := (all_memes.map Meme.pattern).dedup
  { avg_dominant_complexity := listMean dominant_complexities
    std_dominant_complexity := listStd dominant_complexities
    min_dominant_complexity := listMin dominant_complexities
    max_dominant_complexity := listMax dominant_complexities
    avg_dominant_utility := listMean dominant_utilities
    std_dominant_utility := listStd dominant_utilities
    min_dominant_utility := listMin dominant_utilities
    max_dominant_utility := listMax dominant_utilities
    avg_dominant_score := listMean dominant_scores
    avg_pool_complexity := listMean all_complexities
    avg_pool_utility := listMean all_utilities
    unique_patterns := uniques.length
    total_patterns := all_complexities.length
    pattern_diversity := if all_complexities.length = 0 then 0
      else (uniques.length : ℝ) / (all_complexities.length : ℝ) }

/-! ### C8: determinism and the rng draw schedule -/

/-- C8: the trajectory (grids and statistics) is a pure function of the
seed material and configuration — equal inputs give bit-identical runs —
and the draw schedule is fixed: each phase-1 agent consumes one source-meme
draw plus `L` bit-flip draws, each phase-2 cell one neighbor draw plus `L`
bit-flip draws, hence each phase consumes exactly `N² · (1 + L)` draws in
canonical order. -/
theorem C8_determinism (cfg₁ cfg₂ : Config) (e₁ e₂ : SimulationEngine)
    (n₁ n₂ : Nat) (hcfg : cfg₁ = cfg₂) (he : e₁ = e₂) (hn : n₁ = n₂) :
    runN cfg₁ e₁ n₁ = runN cfg₂ e₂ n₂ ∧
    Option.map (fun e => get_grid_stats cfg₁ e.grid) (runN cfg₁ e₁ n₁) =
      Option.map (fun e => get_grid_stats cfg₂ e.grid) (runN cfg₂ e₂ n₂) ∧
    (∀ (a : Agent) (r : Rng), 1 ≤ cfg₁.poolSize → a.meme_pool ≠ [] →
      (∀ m ∈ a.meme_pool, m.pattern.length = cfg₁.memeLength) →
      (internal_agent_step cfg₁ a r).2.pos = r.pos + (1 + cfg₁.memeLength)) ∧
    (∀ (g : Grid) (a : Agent) (r : Rng), 1 ≤ cfg₁.poolSize → WFGrid cfg₁ g →
      (external_update cfg₁ g a r).2.pos = r.pos + (1 + cfg₁.memeLength)) ∧
    (∀ (g : Grid) (r : Rng), 1 ≤ cfg₁.poolSize → WFGrid cfg₁ g →
      (internal_dynamics_phase cfg₁ g r).2.pos =
        r.pos + g.cells.length * (1 + cfg₁.memeLength) ∧
      (external_dynamics_phase cfg₁ g r).2.pos =
        r.pos + g.cells.length * (1 + cfg₁.memeLength)) := by
  subst hcfg
  subst he
  subst hn
  refine ⟨rfl, rfl, ?_, ?_, ?_⟩
  · intro a r hK hne hlen
    exact (internal_agent_spec cfg₁ a r hK hne hlen).2.2.2.2
  · intro g a r hK hwf
    obtain ⟨d, -, -, -, -, -, hpos⟩ := external_update_spec cfg₁ g a r hK hwf
    exact hpos
  · intro g r hK hwf
    refine ⟨(internal_phase_spec cfg₁ g r hK hwf).2.2.2, ?_⟩
    obtain ⟨g2, -, -, -, -, -, hpos⟩ := external_phase_spec cfg₁ g r hK hwf
    exact hpos

/-- Concrete instantiation of `C8_determinism`: two runs of one generation
from the same seed state coincide. -/
theorem C8_determinism_witness :
    runN defaultConfig
      (SimulationEngine.mk (Grid.mk 1 [Agent.mk 0 0 [Meme.mk balancedPattern16 0]])
        (Rng.mk (fun _ => 0) (fun _ => 0) 0) 0) 1 =
    runN defaultConfig
      (SimulationEngine.mk (Grid.mk 1 [Agent.mk 0 0 [Meme.mk balancedPattern16 0]])
        (Rng.mk (fun _ => 0) (fun _ => 0) 0) 0) 1 :=
  (C8_determinism defaultConfig defaultConfig
    (SimulationEngine.mk (Grid.mk 1 [Agent.mk 0 0 [Meme.mk balancedPattern16 0]])
      (Rng.mk (fun _ => 0) (fun _ => 0) 0) 0)
    (SimulationEngine.mk (Grid.mk 1 [Agent.mk 0 0 [Meme.mk balancedPattern16 0]])
      (Rng.mk (fun _ => 0) (fun _ => 0) 0) 0) 1 1 rfl rfl rfl).1

/-! ### C3: the complexity specification -/

/-- C3: for a valid pattern under a configured length of at least 2,
`complexity` is `entropy / log2(L)`, lies in `[0, 1]`, vanishes exactly on
uniform patterns, and — as amended — attains the value `1 / log2(L)` (not
`1`) on a maximally bit-balanced pattern. -/
theorem C3_complexity_spec (cfg : Config) (p : List Nat)
    (hv : validPattern cfg p) (hL : 2 ≤ cfg.memeLength) :
    complexity p = entropy p / Real.logb 2 (p.length : ℝ) ∧
    0 ≤ complexity p ∧ complexity p ≤ 1 ∧
    (complexity p = 0 ↔ ((∀ b ∈ p, b = 0) ∨ (∀ b ∈ p, b = 1))) ∧
    (2 * p.sum = p.length →
      complexity p = 1 / Real.logb 2 (p.length : ℝ)) := by
  obtain ⟨hlen, hbits⟩ := hv
  have hL2 : 2 ≤ p.length := hlen ▸ hL
  have hne : p ≠ [] := by
    intro h
    rw [h] at hL2
    simp at hL2
  have hle : p.sum ≤ p.length := sum_le_length_of_bits hbits
  refine ⟨rfl, complexity_nonneg p hne hle hL2, complexity_le_one p hne hle hL2,
    ?_, ?_⟩
  · rw [complexity_eq_zero_iff p hne hle hL2]
    rw [sum_eq_zero_iff_all_zero, sum_eq_length_iff_all_one hbits]
  · intro hbal
    rw [complexity, entropy_balanced p hne hbal]

/-- Concrete instantiation of `C3_complexity_spec`: the balanced length-16
pattern of the configured run. -/
theorem C3_complexity_spec_witness :
    validPattern defaultConfig balancedPattern16 ∧
    2 ≤ defaultConfig.memeLength ∧
    0 ≤ complexity balancedPattern16 ∧ complexity balancedPattern16 ≤ 1 :=
  ⟨by decide, by decide,
    (C3_complexity_spec defaultConfig balancedPattern16 (by decide) (by decide)).2.1,
    (C3_complexity_spec defaultConfig balancedPattern16 (by decide) (by decide)).2.2.1⟩

/-- C3 counterexample: the maximally bit-balanced pattern of the configured
length 16 is a valid pattern whose complexity is `1/4`, not `1`. -/
theorem C3_counterexample :
    validPattern defaultConfig balancedPattern16 ∧
    2 * balancedPattern16.sum = balancedPattern16.length ∧
    complexity balancedPattern16 ≠ 1 := by
  refine ⟨by decide, by decide, ?_⟩
  rw [complexity_balanced16]
  norm_num

/-! ### C2: the mutation-rate basis -/

/-- Modelled from the spec: the spec's claimed mutation-rate basis, a policy
parameter — `complexity()` under the utility policy and unnormalized
`entropy()` under the fidelity policy.  The source (`copy_with_mutation`)
has no such policy switch; this definition exists to compare the spec's
words against the code. -/
noncomputable def specMutationBasis (cfg : Config) (p : List Nat) : ℝ :=
  if cfg.useUtilitySelection then complexity p else entropy p

/-- The fidelity-policy variant of the configured run. -/
noncomputable def fidelityConfig : Config :=
  { defaultConfig with useUtilitySelection := false }

/-- C2 (amended): the flip threshold used by `copy_with_mutation` is
`mu_base + k * complexity(source)` under **both** selection policies — the
basis never switches to entropy.  Bit `i` of the copy is flipped exactly
when its uniform draw falls below that threshold; the copy's age is `0` and
exactly `L` draws are consumed. -/
theorem C2_mutation_basis (cfg : Config) (m : Meme) (muBase : ℝ) (r : Rng)
    (i : Nat) (hi : i < m.pattern.length) :
    (copy_with_mutation cfg m muBase r).1.pattern.getD i 0 =
      (if r.u (r.pos + i) <
          muBase + cfg.complexityScaleFactor * complexity m.pattern
       then 1 - m.pattern.getD i 0 else m.pattern.getD i 0) ∧
    (copy_with_mutation cfg m muBase r).1.age = 0 ∧
    (copy_with_mutation cfg m muBase r).2 = r.advance m.pattern.length := by
  refine ⟨?_, rfl, ?_⟩
  · show (List.zipWith (fun b x => if x < muEff cfg muBase m.pattern then 1 - b else b)
        m.pattern (r.randoms m.pattern.length).1).getD i 0 = _
    rw [randoms_fst]
    have hzlen : (List.zipWith
        (fun b x => if x < muEff cfg muBase m.pattern then 1 - b else b)
        m.pattern ((List.range m.pattern.length).map
          (fun j => r.u (r.pos + j)))).length = m.pattern.length := by
      rw [List.length_zipWith]
      simp
    rw [List.getD_eq_getElem _ _ (lt_of_lt_of_eq hi hzlen.symm),
      List.getElem_zipWith, List.getD_eq_getElem _ _ hi, List.getElem_map,
      List.getElem_range]
    simp only [muEff]
  · show (r.randoms m.pattern.length).2 = _
    exact randoms_snd _ r

/-- Concrete instantiation of `C2_mutation_basis` at bit 0 of a length-1
meme. -/
theorem C2_mutation_basis_witness :
    0 < (Meme.mk [0] 0).pattern.length ∧
    (copy_with_mutation defaultConfig (Meme.mk [0] 0) 0
        (Rng.mk (fun _ => 0) (fun _ => 0) 0)).1.age = 0 :=
  ⟨by decide,
    (C2_mutation_basis defaultConfig (Meme.mk [0] 0) 0
      (Rng.mk (fun _ => 0) (fun _ => 0) 0) 0 (by decide)).2.1⟩

/-- C2 counterexample: under the fidelity policy the spec's basis is the
unnormalized entropy, but the code's effective rate uses complexity — on
the balanced length-16 pattern the two differ (`0.1 + 0.5 * (1/4)` versus
`0.1 + 0.5 * 1`). -/
theorem C2_counterexample :
    fidelityConfig.useUtilitySelection = false ∧
    muEff fidelityConfig fidelityConfig.muBaseInternal balancedPattern16 ≠
      fidelityConfig.muBaseInternal +
        fidelityConfig.complexityScaleFactor *
          specMutationBasis fidelityConfig balancedPattern16 := by
  refine ⟨rfl, ?_⟩
  have hb : specMutationBasis fidelityConfig balancedPattern16 =
      entropy balancedPattern16 := by
    simp [specMutationBasis, fidelityConfig]
  rw [muEff, hb, complexity_balanced16, entropy_balanced16]
  have hk : fidelityConfig.complexityScaleFactor = 0.5 := rfl
  rw [hk]
  norm_num

end Memesim
